import Mathlib

/-!
# Verification of the `dynamic-puppy` event store

A shallow embedding of `src/index.ts`: an append-only event store over
DynamoDB.  The TypeScript source is embedded as executable Lean
definitions; its external collaborators (the DynamoDB client's
`transactWriteItems` / `query`, the JavaScript `JSON.stringify` /
`JSON.parse` builtins, and the `ksuid` identifier library) are modelled
from their documented contracts, since their code is not part of the
repository.

Conventions:
* JavaScript numbers appearing as JSON payload values are modelled as
  integers (`Int`); floating-point payloads are outside the model.
* DynamoDB stores numbers as decimal strings; the model does the same.
* A JavaScript `throw` is modelled as the `Except.error` branch.
-/

/-! ## JSON values and the `JSON.stringify` / `JSON.parse` builtins

`write` persists `JSON.stringify(event.data)` and `read` applies
`JSON.parse` to what is stored.  Both builtins are external to the
repository, so they are modelled here: `Json` is the value space
(numbers restricted to integers), `jsonStringify` follows the compact
output of `JSON.stringify`, and `jsonParse` is a recursive-descent
reading of the JSON grammar as `JSON.parse` accepts it (restricted to
integer numeric literals; `none` models a thrown `SyntaxError`). -/

inductive Json where
  | null
  | bool (b : Bool)
  | num (n : Int)
  | str (s : String)
  | arr (elems : List Json)
  | obj (fields : List (String × Json))

/-- Decimal digit character: `digitChar 5 = '5'`. -/
def digitChar (d : Nat) : Char := Char.ofNat (48 + d)

/-- Lower-case hex digit character, as emitted in `\u00xx` escapes. -/
def hexChar (d : Nat) : Char := if d < 10 then digitChar d else Char.ofNat (87 + d)

/-- Decimal digits of `n`, most significant first, prepended to `acc`.
`fuel` bounds the number of division steps; `natChars` supplies enough. -/
def natCharsAux : Nat → Nat → List Char → List Char
  | 0, _, acc => acc
  | fuel + 1, n, acc =>
    if n < 10 then digitChar n :: acc
    else natCharsAux fuel (n / 10) (digitChar (n % 10) :: acc)

/-- Decimal rendering of a natural number, e.g. `natChars 17 = ['1','7']`. -/
def natChars (n : Nat) : List Char := natCharsAux (n + 1) n []

/-- `String(n)` for an integral JavaScript number. -/
def intChars (i : Int) : List Char :=
  if i < 0 then '-' :: natChars i.natAbs else natChars i.toNat

/-- The escape `JSON.stringify` applies to one character inside a string
literal: quote and backslash are escaped, control characters get their
short or `\u00xx` form, everything else is emitted verbatim. -/
def escapeChar (c : Char) : List Char :=
  if c = '"' then ['\\', '"']
  else if c = '\\' then ['\\', '\\']
  else if c = '\x08' then ['\\', 'b']
  else if c = '\x0c' then ['\\', 'f']
  else if c = '\n' then ['\\', 'n']
  else if c = '\r' then ['\\', 'r']
  else if c = '\t' then ['\\', 't']
  else if c.toNat < 32 then ['\\', 'u', '0', '0', hexChar (c.toNat / 16), hexChar (c.toNat % 16)]
  else [c]

/-- Body of a JSON string literal. -/
def escapeStr (l : List Char) : List Char := (l.map escapeChar).flatten

/-- A quoted JSON string literal. -/
def strChars (s : String) : List Char := '"' :: (escapeStr s.data ++ ['"'])

mutual

/-- Characters of `JSON.stringify`'s compact output for a value. -/
def stringifyChars : Json → List Char
  | .num n => intChars n
  | .str s => strChars s
  | .bool false => ['f', 'a', 'l', 's', 'e']
  | .bool true => ['t', 'r', 'u', 'e']
  | .null => ['n', 'u', 'l', 'l']
  | .arr xs => '[' :: (stringifyElems xs ++ [']'])
  | .obj fs => '\x7b' :: (stringifyFields fs ++ ['\x7d'])

/-- Comma-separated renderings of array elements. -/
def stringifyElems : List Json → List Char
  | [] => []
  | [x] => stringifyChars x
  | x :: y :: xs => stringifyChars x ++ ',' :: stringifyElems (y :: xs)

/-- Comma-separated `"key":value` renderings of object fields. -/
def stringifyFields : List (String × Json) → List Char
  | [] => []
  | [(k, v)] => strChars k ++ ':' :: stringifyChars v
  | (k, v) :: f :: fs => strChars k ++ ':' :: stringifyChars v ++ ',' :: stringifyFields (f :: fs)

end

/-- `JSON.stringify(v)` (compact form, no added whitespace). -/
def jsonStringify (v : Json) : String := String.mk (stringifyChars v)

/-! ### The parser (`JSON.parse`) -/

/-- JSON insignificant whitespace. -/
def isWs (c : Char) : Bool := c = ' ' || c = '\t' || c = '\n' || c = '\r'

/-- Drop insignificant whitespace before the next token. -/
def skipWs : List Char → List Char
  | [] => []
  | c :: cs => if isWs c then skipWs cs else c :: cs

/-- Decimal digit test (the character-class test of the number grammar). -/
def isDigitC (c : Char) : Bool := 48 ≤ c.toNat && c.toNat ≤ 57

/-- Numeric value of a decimal digit character. -/
def digitVal (c : Char) : Nat := c.toNat - 48

/-- Value of a run of decimal digit characters, most significant first. -/
def valOfDigits (ds : List Char) : Nat := ds.foldl (fun a c => a * 10 + digitVal c) 0

/-- Split off the leading run of decimal digits. -/
def takeDigits : List Char → List Char × List Char
  | [] => ([], [])
  | c :: cs =>
    if isDigitC c then
      let p := takeDigits cs
      (c :: p.1, p.2)
    else ([], c :: cs)

/-- Read a nonempty run of decimal digits; `none` when the input does not
start with a digit. -/
def parseNatTok (l : List Char) : Option (Nat × List Char) :=
  match takeDigits l with
  | ([], _) => none
  | (ds, rest) => some (valOfDigits ds, rest)

/-- Read an integer numeric literal (the integral fragment of the JSON
number grammar; fractional and exponent parts are outside the model). -/
def parseIntTok (l : List Char) : Option (Int × List Char) :=
  if l.head? = some '-' then (parseNatTok l.tail).map (fun p => (-(p.1 : Int), p.2))
  else (parseNatTok l).map (fun p => ((p.1 : Int), p.2))

/-- Value of a lower- or upper-case hex digit character. -/
def hexVal (c : Char) : Option Nat :=
  if isDigitC c then some (c.toNat - 48)
  else if 97 ≤ c.toNat && c.toNat ≤ 102 then some (c.toNat - 87)
  else if 65 ≤ c.toNat && c.toNat ≤ 70 then some (c.toNat - 55)
  else none

/-- The character denoted by a single-letter escape sequence. -/
def unescape1 : Char → Option Char
  | '"' => some '"'
  | '\\' => some '\\'
  | '/' => some '/'
  | 'b' => some '\x08'
  | 'f' => some '\x0c'
  | 'n' => some '\n'
  | 'r' => some '\r'
  | 't' => some '\t'
  | _ => none

/-- Read the body of a string literal after the opening quote, decoding
escapes, up to and including the closing quote.  Unescaped control
characters are rejected, as `JSON.parse` rejects them. -/
def parseStrBody : List Char → Option (List Char × List Char)
  | [] => none
  | c :: cs =>
    if c = '"' then some ([], cs)
    else if c = '\\' then
      match cs with
      | [] => none
      | 'u' :: h1 :: h2 :: h3 :: h4 :: rest =>
        match hexVal h1, hexVal h2, hexVal h3, hexVal h4 with
        | some a, some b, some c2, some d =>
          (parseStrBody rest).map (fun p => (Char.ofNat (((a * 16 + b) * 16 + c2) * 16 + d) :: p.1, p.2))
        | _, _, _, _ => none
      | e :: rest =>
        match unescape1 e with
        | some u => (parseStrBody rest).map (fun p => (u :: p.1, p.2))
        | none => none
    else if c.toNat < 32 then none
    else (parseStrBody cs).map (fun p => (c :: p.1, p.2))

/-- Body of `parseVal`, abstracted over the continuations that read
array elements and object fields at the next fuel level. -/
def parseValAux (pE : List Char → List Json → Option (Json × List Char))
    (pF : List Char → List (String × Json) → Option (Json × List Char))
    (input : List Char) : Option (Json × List Char) :=
  match skipWs input with
  | 'n' :: 'u' :: 'l' :: 'l' :: rest => some (.null, rest)
  | 't' :: 'r' :: 'u' :: 'e' :: rest => some (.bool true, rest)
  | 'f' :: 'a' :: 'l' :: 's' :: 'e' :: rest => some (.bool false, rest)
  | '"' :: rest => (parseStrBody rest).map (fun p => (.str (String.mk p.1), p.2))
  | '[' :: rest =>
    (match skipWs rest with
     | ']' :: rest' => some (.arr [], rest')
     | _ => pE rest [])
  | '\x7b' :: rest =>
    (match skipWs rest with
     | '\x7d' :: rest' => some (.obj [], rest')
     | _ => pF rest [])
  | l => (parseIntTok l).map (fun p => (.num p.1, p.2))

/-- Body of `parseElems`, abstracted over the continuations. -/
def parseElemsAux (pV : List Char → Option (Json × List Char))
    (pE : List Char → List Json → Option (Json × List Char))
    (input : List Char) (acc : List Json) : Option (Json × List Char) :=
  match pV input with
  | none => none
  | some (v, rest) =>
    match skipWs rest with
    | ',' :: rest' => pE rest' (acc ++ [v])
    | ']' :: rest' => some (.arr (acc ++ [v]), rest')
    | _ => none

/-- After an object key: expect `:`, a value, then `,` or the closing
brace. -/
def parseFieldsCont (pV : List Char → Option (Json × List Char))
    (pF : List Char → List (String × Json) → Option (Json × List Char))
    (acc : List (String × Json)) (k : String) (rest1 : List Char) :
    Option (Json × List Char) :=
  match skipWs rest1 with
  | ':' :: rest2 =>
    (match pV rest2 with
     | none => none
     | some (v, rest3) =>
       match skipWs rest3 with
       | ',' :: rest4 => pF rest4 (acc ++ [(k, v)])
       | '\x7d' :: rest4 => some (.obj (acc ++ [(k, v)]), rest4)
       | _ => none)
  | _ => none

/-- Body of `parseFields`, abstracted over the continuations. -/
def parseFieldsAux (pV : List Char → Option (Json × List Char))
    (pF : List Char → List (String × Json) → Option (Json × List Char))
    (input : List Char) (acc : List (String × Json)) : Option (Json × List Char) :=
  match skipWs input with
  | '"' :: rest =>
    (match parseStrBody rest with
     | none => none
     | some (k, rest1) => parseFieldsCont pV pF acc (String.mk k) rest1)
  | _ => none

mutual

/-- Read one JSON value.  `fuel` bounds the recursion depth; the
top-level entry point supplies enough for any input it could accept. -/
def parseVal : Nat → List Char → Option (Json × List Char)
  | 0, _ => none
  | fuel + 1, input => parseValAux (parseElems fuel) (parseFields fuel) input

/-- Read the elements of a nonempty array after its opening bracket. -/
def parseElems : Nat → List Char → List Json → Option (Json × List Char)
  | 0, _, _ => none
  | fuel + 1, input, acc => parseElemsAux (parseVal fuel) (parseElems fuel) input acc

/-- Read the fields of a nonempty object after its opening brace. -/
def parseFields : Nat → List Char → List (String × Json) → Option (Json × List Char)
  | 0, _, _ => none
  | fuel + 1, input, acc => parseFieldsAux (parseVal fuel) (parseFields fuel) input acc

end

/-- `JSON.parse(s)`: read one value and require only whitespace after it;
`none` models a thrown `SyntaxError`. -/
def jsonParse (s : String) : Option Json :=
  match parseVal (2 * s.data.length + 2) s.data with
  | some (v, rest) => if skipWs rest = [] then some v else none
  | none => none

/-! ### Character-level facts -/

theorem char_eq_of_toNat_eq {a b : Char} (h : a.toNat = b.toNat) : a = b :=
  Char.ext (UInt32.ext h)

theorem char_ne_of_toNat_ne {a b : Char} (h : a.toNat ≠ b.toNat) : a ≠ b :=
  fun he => h (congrArg Char.toNat he)

theorem toNat_ofNat_isValid {n : Nat} (hv : n.isValidChar) : (Char.ofNat n).toNat = n := by
  simp only [Char.ofNat, hv, dif_pos, Char.toNat, Char.ofNatAux]
  simp [UInt32.toNat, BitVec.toNat_ofNatLt]

theorem toNat_ofNat_valid {n : Nat} (h : n < 55296) : (Char.ofNat n).toNat = n :=
  toNat_ofNat_isValid (Or.inl h)

theorem ofNat_toNat_char (c : Char) : Char.ofNat c.toNat = c :=
  char_eq_of_toNat_eq (toNat_ofNat_isValid c.valid)

theorem toNat_digitChar {d : Nat} (h : d < 10) : (digitChar d).toNat = 48 + d :=
  toNat_ofNat_valid (by omega)

theorem isWs_eq_false {c : Char} (h : ¬ (c.toNat = 32 ∨ c.toNat = 9 ∨ c.toNat = 10 ∨ c.toNat = 13)) :
    isWs c = false := by
  have h32 : c ≠ ' ' := char_ne_of_toNat_ne (by intro hc; exact h (Or.inl hc))
  have h9 : c ≠ '\t' := char_ne_of_toNat_ne (by intro hc; exact h (Or.inr (Or.inl hc)))
  have h10 : c ≠ '\n' := char_ne_of_toNat_ne (by intro hc; exact h (Or.inr (Or.inr (Or.inl hc))))
  have h13 : c ≠ '\r' := char_ne_of_toNat_ne (by intro hc; exact h (Or.inr (Or.inr (Or.inr hc))))
  simp [isWs, h32, h9, h10, h13]

theorem skipWs_cons {c : Char} (l : List Char) (h : isWs c = false) :
    skipWs (c :: l) = c :: l := by
  simp [skipWs, h]

theorem isDigitC_digitChar {d : Nat} (h : d < 10) : isDigitC (digitChar d) = true := by
  simp [isDigitC, toNat_digitChar h]; omega

theorem digitVal_digitChar {d : Nat} (h : d < 10) : digitVal (digitChar d) = d := by
  simp [digitVal, toNat_digitChar h]

/-! ### Decimal rendering round-trip -/

theorem natCharsAux_eq_append (n : Nat) :
    ∀ fuel acc, n < fuel → natCharsAux fuel n acc = natChars n ++ acc := by
  induction n using Nat.strong_induction_on with
  | _ n ih =>
    intro fuel acc hfuel
    match fuel, hfuel with
    | f + 1, _ =>
      by_cases h : n < 10
      · show (if n < 10 then digitChar n :: acc else _) = natChars n ++ acc
        rw [if_pos h, natChars]
        show digitChar n :: acc = (if n < 10 then [digitChar n] else _) ++ acc
        rw [if_pos h]
        rfl
      · have hlt : n / 10 < n := Nat.div_lt_self (by omega) (by omega)
        show (if n < 10 then digitChar n :: acc else
          natCharsAux f (n / 10) (digitChar (n % 10) :: acc)) = natChars n ++ acc
        rw [if_neg h, ih _ hlt f _ (by omega)]
        have l2 : natChars n = natChars (n / 10) ++ [digitChar (n % 10)] := by
          rw [natChars]
          show (if n < 10 then digitChar n :: [] else
            natCharsAux n (n / 10) (digitChar (n % 10) :: [])) = _
          rw [if_neg h, ih _ hlt n _ (by omega)]
        rw [l2, List.append_assoc]
        rfl

theorem natChars_lt {n : Nat} (h : n < 10) : natChars n = [digitChar n] := by
  rw [natChars]
  show (if n < 10 then digitChar n :: [] else _) = _
  rw [if_pos h]

theorem natChars_step {n : Nat} (h : ¬ n < 10) :
    natChars n = natChars (n / 10) ++ [digitChar (n % 10)] := by
  rw [natChars]
  show (if n < 10 then digitChar n :: [] else
    natCharsAux n (n / 10) (digitChar (n % 10) :: [])) = _
  rw [if_neg h, natCharsAux_eq_append _ _ _ (by
    have : n / 10 < n := Nat.div_lt_self (by omega) (by omega)
    omega)]

theorem natChars_ne_nil (n : Nat) : natChars n ≠ [] := by
  by_cases h : n < 10
  · rw [natChars_lt h]
    simp
  · rw [natChars_step h]
    simp

theorem natChars_digits (n : Nat) : ∀ c ∈ natChars n, isDigitC c = true := by
  induction n using Nat.strong_induction_on with
  | _ n ih =>
    intro c hc
    by_cases h : n < 10
    · rw [natChars_lt h] at hc
      simp at hc
      subst hc
      exact isDigitC_digitChar h
    · rw [natChars_step h] at hc
      rcases List.mem_append.mp hc with h1 | h1
      · exact ih _ (Nat.div_lt_self (by omega) (by omega)) c h1
      · simp at h1
        subst h1
        exact isDigitC_digitChar (Nat.mod_lt _ (by omega))

theorem valOfDigits_append_single (ds : List Char) (c : Char) :
    valOfDigits (ds ++ [c]) = valOfDigits ds * 10 + digitVal c := by
  simp [valOfDigits, List.foldl_append]

theorem valOfDigits_natChars (n : Nat) : valOfDigits (natChars n) = n := by
  induction n using Nat.strong_induction_on with
  | _ n ih =>
    by_cases h : n < 10
    · rw [natChars_lt h]
      simp [valOfDigits, digitVal_digitChar h]
    · rw [natChars_step h, valOfDigits_append_single,
        ih _ (Nat.div_lt_self (by omega) (by omega)),
        digitVal_digitChar (Nat.mod_lt _ (by omega))]
      omega


/-! ### Number-token completeness -/

/-- The input does not continue with a decimal digit. -/
def noDigitStart : List Char → Prop
  | [] => True
  | c :: _ => isDigitC c = false

theorem takeDigits_append (ds rest : List Char) (hds : ∀ c ∈ ds, isDigitC c = true)
    (hrest : noDigitStart rest) : takeDigits (ds ++ rest) = (ds, rest) := by
  induction ds with
  | nil =>
    cases rest with
    | nil => rfl
    | cons c cs =>
      have hc : isDigitC c = false := hrest
      simp [takeDigits, hc]
  | cons c cs ih =>
    have hc : isDigitC c = true := hds c (List.mem_cons_self c cs)
    simp [takeDigits, hc, ih (fun x hx => hds x (List.mem_cons_of_mem c hx))]

theorem natChars_head (n : Nat) : ∃ d ds, natChars n = d :: ds ∧ isDigitC d = true := by
  cases h : natChars n with
  | nil => exact absurd h (natChars_ne_nil n)
  | cons d ds =>
    exact ⟨d, ds, rfl, natChars_digits n d (h ▸ List.mem_cons_self d ds)⟩

theorem parseNatTok_complete (n : Nat) (rest : List Char) (hrest : noDigitStart rest) :
    parseNatTok (natChars n ++ rest) = some (n, rest) := by
  rw [parseNatTok, takeDigits_append _ _ (natChars_digits n) hrest]
  obtain ⟨d, ds, hd, -⟩ := natChars_head n
  rw [hd]
  show some (valOfDigits (d :: ds), rest) = some (n, rest)
  rw [← hd, valOfDigits_natChars]

theorem parseIntTok_complete (i : Int) (rest : List Char) (hrest : noDigitStart rest) :
    parseIntTok (intChars i ++ rest) = some (i, rest) := by
  by_cases hi : i < 0
  · rw [intChars, if_pos hi, show ('-' :: natChars i.natAbs) ++ rest =
      '-' :: (natChars i.natAbs ++ rest) from rfl, parseIntTok]
    rw [if_pos (show ('-' :: (natChars i.natAbs ++ rest)).head? = some '-' from rfl)]
    show (parseNatTok (natChars i.natAbs ++ rest)).map (fun p => (-(p.1 : Int), p.2)) =
      some (i, rest)
    rw [parseNatTok_complete _ _ hrest]
    simp only [Option.map_some', Option.some.injEq, Prod.mk.injEq]
    exact ⟨by omega, trivial⟩
  · rw [intChars, if_neg hi]
    obtain ⟨d, ds, hd, hdig⟩ := natChars_head i.toNat
    rw [parseIntTok]
    have hne : d ≠ '-' := by
      apply char_ne_of_toNat_ne
      rw [show ('-').toNat = 45 from rfl]
      simp [isDigitC] at hdig
      omega
    have hh : (natChars i.toNat ++ rest).head? ≠ some '-' := by
      rw [hd]
      simpa using hne
    rw [if_neg hh, parseNatTok_complete _ _ hrest]
    simp only [Option.map_some', Option.some.injEq, Prod.mk.injEq]
    exact ⟨by omega, trivial⟩

/-! ### String-literal completeness -/

theorem hexVal_hexChar {d : Nat} (h : d < 16) : hexVal (hexChar d) = some d := by
  by_cases h10 : d < 10
  · rw [hexChar, if_pos h10, hexVal, if_pos (by simp [isDigitC, toNat_digitChar h10]; omega),
      toNat_digitChar h10]
    congr 1
    omega
  · have ht : (Char.ofNat (87 + d)).toNat = 87 + d := toNat_ofNat_valid (by omega)
    rw [hexChar, if_neg h10, hexVal, if_neg (by simp [isDigitC, ht]; omega),
      if_pos (by simp [ht]; omega), ht]
    congr 1
    omega

theorem escapeStr_nil : escapeStr [] = [] := rfl

theorem escapeStr_cons (c : Char) (cs : List Char) :
    escapeStr (c :: cs) = escapeChar c ++ escapeStr cs := by
  simp [escapeStr]

theorem parseStrBody_complete (l : List Char) (rest : List Char) :
    parseStrBody (escapeStr l ++ '"' :: rest) = some (l, rest) := by
  induction l with
  | nil =>
    rw [escapeStr_nil, List.nil_append]
    simp [parseStrBody.eq_def]
  | cons c cs ih =>
    rw [escapeStr_cons, List.append_assoc]
    by_cases h1 : c = '"'
    · subst h1
      rw [show escapeChar '"' = ['\\', '"'] from rfl]
      simp only [List.cons_append, List.nil_append]
      rw [show parseStrBody ('\\' :: '"' :: (escapeStr cs ++ '"' :: rest)) =
        (parseStrBody (escapeStr cs ++ '"' :: rest)).map (fun p => ('"' :: p.1, p.2)) from rfl, ih]
      rfl
    by_cases h2 : c = '\\'
    · subst h2
      rw [show escapeChar '\\' = ['\\', '\\'] from rfl]
      simp only [List.cons_append, List.nil_append]
      rw [show parseStrBody ('\\' :: '\\' :: (escapeStr cs ++ '"' :: rest)) =
        (parseStrBody (escapeStr cs ++ '"' :: rest)).map (fun p => ('\\' :: p.1, p.2)) from rfl, ih]
      rfl
    by_cases h3 : c = '\x08'
    · subst h3
      rw [show escapeChar '\x08' = ['\\', 'b'] from rfl]
      simp only [List.cons_append, List.nil_append]
      rw [show parseStrBody ('\\' :: 'b' :: (escapeStr cs ++ '"' :: rest)) =
        (parseStrBody (escapeStr cs ++ '"' :: rest)).map (fun p => ('\x08' :: p.1, p.2)) from rfl,
        ih]
      rfl
    by_cases h4 : c = '\x0c'
    · subst h4
      rw [show escapeChar '\x0c' = ['\\', 'f'] from rfl]
      simp only [List.cons_append, List.nil_append]
      rw [show parseStrBody ('\\' :: 'f' :: (escapeStr cs ++ '"' :: rest)) =
        (parseStrBody (escapeStr cs ++ '"' :: rest)).map (fun p => ('\x0c' :: p.1, p.2)) from rfl,
        ih]
      rfl
    by_cases h5 : c = '\n'
    · subst h5
      rw [show escapeChar '\n' = ['\\', 'n'] from rfl]
      simp only [List.cons_append, List.nil_append]
      rw [show parseStrBody ('\\' :: 'n' :: (escapeStr cs ++ '"' :: rest)) =
        (parseStrBody (escapeStr cs ++ '"' :: rest)).map (fun p => ('\n' :: p.1, p.2)) from rfl, ih]
      rfl
    by_cases h6 : c = '\r'
    · subst h6
      rw [show escapeChar '\r' = ['\\', 'r'] from rfl]
      simp only [List.cons_append, List.nil_append]
      rw [show parseStrBody ('\\' :: 'r' :: (escapeStr cs ++ '"' :: rest)) =
        (parseStrBody (escapeStr cs ++ '"' :: rest)).map (fun p => ('\r' :: p.1, p.2)) from rfl, ih]
      rfl
    by_cases h7 : c = '\t'
    · subst h7
      rw [show escapeChar '\t' = ['\\', 't'] from rfl]
      simp only [List.cons_append, List.nil_append]
      rw [show parseStrBody ('\\' :: 't' :: (escapeStr cs ++ '"' :: rest)) =
        (parseStrBody (escapeStr cs ++ '"' :: rest)).map (fun p => ('\t' :: p.1, p.2)) from rfl, ih]
      rfl
    by_cases h8 : c.toNat < 32
    · rw [show escapeChar c =
        ['\\', 'u', '0', '0', hexChar (c.toNat / 16), hexChar (c.toNat % 16)] from by
          simp [escapeChar, h1, h2, h3, h4, h5, h6, h7, h8]]
      simp only [List.cons_append, List.nil_append]
      have e1 : hexVal (hexChar (c.toNat / 16)) = some (c.toNat / 16) :=
        hexVal_hexChar (by omega)
      have e2 : hexVal (hexChar (c.toNat % 16)) = some (c.toNat % 16) :=
        hexVal_hexChar (Nat.mod_lt _ (by omega))
      rw [show parseStrBody ('\\' :: 'u' :: '0' :: '0' :: hexChar (c.toNat / 16) ::
          hexChar (c.toNat % 16) :: (escapeStr cs ++ '"' :: rest)) =
        (match hexVal '0', hexVal '0', hexVal (hexChar (c.toNat / 16)),
               hexVal (hexChar (c.toNat % 16)) with
         | some a, some b, some c2, some d =>
           (parseStrBody (escapeStr cs ++ '"' :: rest)).map
             (fun p => (Char.ofNat (((a * 16 + b) * 16 + c2) * 16 + d) :: p.1, p.2))
         | _, _, _, _ => none) from rfl]
      rw [show hexVal '0' = some 0 from rfl, e1, e2]
      show (parseStrBody (escapeStr cs ++ '"' :: rest)).map
        (fun p => (Char.ofNat (((0 * 16 + 0) * 16 + c.toNat / 16) * 16 + c.toNat % 16) :: p.1,
          p.2)) = some (c :: cs, rest)
      rw [ih]
      simp only [Option.map_some']
      rw [show ((0 * 16 + 0) * 16 + c.toNat / 16) * 16 + c.toNat % 16 = c.toNat by omega,
        ofNat_toNat_char]
    · rw [show escapeChar c = [c] from by simp [escapeChar, h1, h2, h3, h4, h5, h6, h7, h8]]
      simp only [List.cons_append, List.nil_append]
      rw [parseStrBody.eq_def]
      simp only [h1, h2, if_false, if_neg (show ¬ c.toNat < 32 by omega), ite_false]
      rw [ih]
      rfl

/-! ### Parser completeness on printed output -/

mutual

/-- Fuel needed by `parseVal` to read a printed value. -/
def jsizeV : Json → Nat
  | .null => 1
  | .bool _ => 1
  | .num _ => 1
  | .str _ => 1
  | .arr xs => 1 + jsizeL xs
  | .obj fs => 1 + jsizeF fs

/-- Fuel needed by `parseElems` for the remaining elements. -/
def jsizeL : List Json → Nat
  | [] => 0
  | x :: xs => 1 + jsizeV x + jsizeL xs

/-- Fuel needed by `parseFields` for the remaining fields. -/
def jsizeF : List (String × Json) → Nat
  | [] => 0
  | (_, v) :: fs => 1 + jsizeV v + jsizeF fs

end

theorem jsizeV_pos (v : Json) : 1 ≤ jsizeV v := by
  cases v <;> simp [jsizeV]

theorem isWs_false_of_digit {c : Char} (h : isDigitC c = true) : isWs c = false := by
  simp [isDigitC] at h
  exact isWs_eq_false (by omega)

theorem stringify_head (v : Json) :
    ∃ c cs, stringifyChars v = c :: cs ∧ isWs c = false ∧ c ≠ ']' ∧ c ≠ '\x7d' := by
  have fixed : ∀ (c : Char) (cs : List Char),
      isWs c = false ∧ c ≠ ']' ∧ c ≠ '\x7d' →
      ∃ c0 l, (c :: cs : List Char) = c0 :: l ∧ isWs c0 = false ∧ c0 ≠ ']' ∧ c0 ≠ '\x7d' :=
    fun c cs h => ⟨c, cs, rfl, h.1, h.2.1, h.2.2⟩
  cases v with
  | null => exact fixed 'n' _ (by decide)
  | bool b => cases b
              · exact fixed 'f' _ (by decide)
              · exact fixed 't' _ (by decide)
  | num n =>
    by_cases hn : n < 0
    · exact ⟨'-', _, by rw [stringifyChars, intChars, if_pos hn], by decide, by decide,
        by decide⟩
    · obtain ⟨d, ds, hd, hdig⟩ := natChars_head n.toNat
      refine ⟨d, ds, by rw [stringifyChars, intChars, if_neg hn, hd], isWs_false_of_digit hdig,
        ?_, ?_⟩
      · simp [isDigitC] at hdig
        exact char_ne_of_toNat_ne (by rw [show (']').toNat = 93 from rfl]; omega)
      · simp [isDigitC] at hdig
        exact char_ne_of_toNat_ne (by rw [show ('\x7d').toNat = 125 from rfl]; omega)
  | str s => exact fixed '"' _ (by decide)
  | arr xs => exact fixed '[' _ (by decide)
  | obj fs => exact fixed '\x7b' _ (by decide)

theorem string_mk_data (s : String) : String.mk s.data = s := by
  cases s
  rfl

theorem parseValAux_digitish (pE) (pF) (c : Char) (l : List Char)
    (h : isDigitC c = true ∨ c = '-') :
    parseValAux pE pF (c :: l) = (parseIntTok (c :: l)).map (fun p => (Json.num p.1, p.2)) := by
  have hbounds : c.toNat = 45 ∨ (48 ≤ c.toNat ∧ c.toNat ≤ 57) := by
    rcases h with h | h
    · right
      simpa [isDigitC] using h
    · left
      rw [h]
      rfl
  have hws : isWs c = false := isWs_eq_false (by omega)
  rw [parseValAux.eq_def, skipWs_cons _ hws]
  split
  · rename_i heq
    injection heq with h1 _
    subst h1
    exact absurd hbounds (by decide)
  · rename_i heq
    injection heq with h1 _
    subst h1
    exact absurd hbounds (by decide)
  · rename_i heq
    injection heq with h1 _
    subst h1
    exact absurd hbounds (by decide)
  · rename_i heq
    injection heq with h1 _
    subst h1
    exact absurd hbounds (by decide)
  · rename_i heq
    injection heq with h1 _
    subst h1
    exact absurd hbounds (by decide)
  · rename_i heq
    injection heq with h1 _
    subst h1
    exact absurd hbounds (by decide)
  · rfl

theorem noDigitStart_cons {c : Char} (l : List Char) (h : isDigitC c = false) :
    noDigitStart (c :: l) := h

theorem stringifyElems_head (x : Json) (xs : List Json) :
    ∃ t, stringifyElems (x :: xs) = stringifyChars x ++ t := by
  cases xs with
  | nil => exact ⟨[], by simp [stringifyElems]⟩
  | cons y ys => exact ⟨',' :: stringifyElems (y :: ys), rfl⟩

theorem stringifyFields_head (k : String) (v : Json) (fs : List (String × Json)) :
    ∃ t, stringifyFields ((k, v) :: fs) = '"' :: t := by
  cases fs with
  | nil => exact ⟨escapeStr k.data ++ ['"'] ++ (':' :: stringifyChars v), by
      simp [stringifyFields, strChars]⟩
  | cons f fs' => exact ⟨escapeStr k.data ++ ['"'] ++ (':' :: (stringifyChars v ++
      ',' :: stringifyFields (f :: fs'))), by simp [stringifyFields, strChars]⟩

theorem parse_complete (fuel : Nat) :
    (∀ v rest, jsizeV v ≤ fuel → noDigitStart rest →
      parseVal fuel (stringifyChars v ++ rest) = some (v, rest)) ∧
    (∀ x xs acc rest, jsizeL (x :: xs) ≤ fuel →
      parseElems fuel (stringifyElems (x :: xs) ++ ']' :: rest) acc =
        some (.arr (acc ++ x :: xs), rest)) ∧
    (∀ k v fs acc rest, jsizeF ((k, v) :: fs) ≤ fuel →
      parseFields fuel (stringifyFields ((k, v) :: fs) ++ '\x7d' :: rest) acc =
        some (.obj (acc ++ (k, v) :: fs), rest)) := by
  induction fuel with
  | zero =>
    refine ⟨fun v rest hs _ => ?_, fun x xs acc rest hs => ?_, fun k v fs acc rest hs => ?_⟩
    · exfalso
      have := jsizeV_pos v
      omega
    · exfalso
      rw [jsizeL] at hs
      omega
    · exfalso
      rw [jsizeF] at hs
      omega
  | succ fuel ih =>
    obtain ⟨ihV, ihE, ihF⟩ := ih
    refine ⟨fun v rest hs hrest => ?_, fun x xs acc rest hs => ?_,
      fun k v fs acc rest hs => ?_⟩
    · -- parseVal
      cases v with
      | null => rfl
      | bool b => cases b <;> rfl
      | num n =>
        obtain ⟨c, cs, hcs, hcl⟩ : ∃ c cs, intChars n = c :: cs ∧
            (isDigitC c = true ∨ c = '-') := by
          by_cases hn : n < 0
          · exact ⟨'-', _, by rw [intChars, if_pos hn], Or.inr rfl⟩
          · obtain ⟨d, ds, hd, hdig⟩ := natChars_head n.toNat
            exact ⟨d, ds, by rw [intChars, if_neg hn, hd], Or.inl hdig⟩
        rw [show stringifyChars (Json.num n) = intChars n from rfl, hcs, List.cons_append,
          show parseVal (fuel + 1) (c :: (cs ++ rest)) =
            parseValAux (parseElems fuel) (parseFields fuel) (c :: (cs ++ rest)) from rfl,
          parseValAux_digitish _ _ _ _ hcl, ← List.cons_append, ← hcs,
          parseIntTok_complete n rest hrest]
        rfl
      | str s =>
        show parseVal (fuel + 1) (('"' :: (escapeStr s.data ++ ['"'])) ++ rest) =
          some (.str s, rest)
        rw [List.cons_append, List.append_assoc, List.singleton_append,
          show parseVal (fuel + 1) ('"' :: (escapeStr s.data ++ '"' :: rest)) =
            (parseStrBody (escapeStr s.data ++ '"' :: rest)).map
              (fun p => (Json.str (String.mk p.1), p.2)) from rfl,
          parseStrBody_complete]
        simp [string_mk_data]
      | arr xs =>
        cases xs with
        | nil => rfl
        | cons x xs' =>
          have hsz : jsizeL (x :: xs') ≤ fuel := by
            rw [jsizeV] at hs
            omega
          obtain ⟨c, cs, hc, hcws, hcne, -⟩ := stringify_head x
          obtain ⟨t, ht⟩ := stringifyElems_head x xs'
          show parseVal (fuel + 1)
            (('[' :: (stringifyElems (x :: xs') ++ [']'])) ++ rest) = some (.arr (x :: xs'), rest)
          rw [List.cons_append, List.append_assoc, List.singleton_append,
            show parseVal (fuel + 1) ('[' :: (stringifyElems (x :: xs') ++ ']' :: rest)) =
              (match skipWs (stringifyElems (x :: xs') ++ ']' :: rest) with
               | ']' :: rest' => some (Json.arr [], rest')
               | _ => parseElems fuel (stringifyElems (x :: xs') ++ ']' :: rest) []) from rfl]
          have hL : stringifyElems (x :: xs') ++ ']' :: rest =
              c :: (cs ++ (t ++ ']' :: rest)) := by
            rw [ht, hc]
            simp
          rw [hL, skipWs_cons _ hcws]
          split
          · rename_i heq
            injection heq with h1 _
            exact absurd h1 hcne
          · rw [← hL, ihE x xs' [] rest hsz]
            simp
      | obj fs =>
        cases fs with
        | nil => rfl
        | cons f fs' =>
          obtain ⟨k, v⟩ := f
          have hsz : jsizeF ((k, v) :: fs') ≤ fuel := by
            rw [jsizeV] at hs
            omega
          obtain ⟨t, ht⟩ := stringifyFields_head k v fs'
          show parseVal (fuel + 1)
            (('\x7b' :: (stringifyFields ((k, v) :: fs') ++ ['\x7d'])) ++ rest) =
            some (.obj ((k, v) :: fs'), rest)
          rw [List.cons_append, List.append_assoc, List.singleton_append,
            show parseVal (fuel + 1)
                ('\x7b' :: (stringifyFields ((k, v) :: fs') ++ '\x7d' :: rest)) =
              (match skipWs (stringifyFields ((k, v) :: fs') ++ '\x7d' :: rest) with
               | '\x7d' :: rest' => some (Json.obj [], rest')
               | _ => parseFields fuel (stringifyFields ((k, v) :: fs') ++ '\x7d' :: rest) [])
              from rfl]
          have hL : stringifyFields ((k, v) :: fs') ++ '\x7d' :: rest =
              '"' :: (t ++ '\x7d' :: rest) := by
            rw [ht]
            rfl
          rw [hL, skipWs_cons _ (by decide)]
          rw [show (match ('"' :: (t ++ '\x7d' :: rest) : List Char) with
               | '\x7d' :: rest' => some (Json.obj [], rest')
               | _ => parseFields fuel ('"' :: (t ++ '\x7d' :: rest)) []) =
              parseFields fuel ('"' :: (t ++ '\x7d' :: rest)) [] from rfl]
          rw [← hL, ihF k v fs' [] rest hsz]
          simp
    · -- parseElems
      cases xs with
      | nil =>
        have hszx : jsizeV x ≤ fuel := by
          rw [jsizeL] at hs
          omega
        rw [show stringifyElems [x] = stringifyChars x from by rw [stringifyElems],
          show parseElems (fuel + 1) (stringifyChars x ++ ']' :: rest) acc =
            parseElemsAux (parseVal fuel) (parseElems fuel)
              (stringifyChars x ++ ']' :: rest) acc from rfl,
          parseElemsAux.eq_def,
          ihV x (']' :: rest) hszx (noDigitStart_cons _ (by decide))]
        rfl
      | cons y ys =>
        have hszx : jsizeV x ≤ fuel := by
          rw [jsizeL] at hs
          omega
        have hszys : jsizeL (y :: ys) ≤ fuel := by
          rw [jsizeL] at hs
          omega
        rw [show stringifyElems (x :: y :: ys) =
            stringifyChars x ++ ',' :: stringifyElems (y :: ys) from rfl,
          List.append_assoc, List.cons_append,
          show parseElems (fuel + 1)
              (stringifyChars x ++ ',' :: (stringifyElems (y :: ys) ++ ']' :: rest)) acc =
            parseElemsAux (parseVal fuel) (parseElems fuel)
              (stringifyChars x ++ ',' :: (stringifyElems (y :: ys) ++ ']' :: rest)) acc
            from rfl,
          parseElemsAux.eq_def,
          ihV x (',' :: (stringifyElems (y :: ys) ++ ']' :: rest)) hszx
            (noDigitStart_cons _ (by decide))]
        show parseElems fuel (stringifyElems (y :: ys) ++ ']' :: rest) (acc ++ [x]) =
          some (.arr (acc ++ x :: y :: ys), rest)
        rw [ihE y ys (acc ++ [x]) rest hszys]
        simp
    · -- parseFields
      have hszv : jsizeV v ≤ fuel := by
        rw [jsizeF] at hs
        omega
      cases fs with
      | nil =>
        rw [show stringifyFields [(k, v)] = strChars k ++ ':' :: stringifyChars v from by
            rw [stringifyFields],
          show strChars k = '"' :: (escapeStr k.data ++ ['"']) from rfl]
        simp only [List.cons_append, List.append_assoc, List.singleton_append, List.nil_append]
        rw [show parseFields (fuel + 1)
              ('"' :: (escapeStr k.data ++ '"' :: (':' :: (stringifyChars v ++ '\x7d' :: rest))))
              acc =
            parseFieldsAux (parseVal fuel) (parseFields fuel)
              ('"' :: (escapeStr k.data ++ '"' :: (':' :: (stringifyChars v ++ '\x7d' :: rest))))
              acc from rfl,
          parseFieldsAux.eq_def]
        rw [show skipWs ('"' :: (escapeStr k.data ++ '"' ::
            (':' :: (stringifyChars v ++ '\x7d' :: rest)))) =
          '"' :: (escapeStr k.data ++ '"' :: (':' :: (stringifyChars v ++ '\x7d' :: rest)))
          from skipWs_cons _ (by decide)]
        show (match parseStrBody (escapeStr k.data ++ '"' ::
            (':' :: (stringifyChars v ++ '\x7d' :: rest))) with
          | none => none
          | some (kk, rest1) =>
            parseFieldsCont (parseVal fuel) (parseFields fuel) acc (String.mk kk) rest1) =
          some (.obj (acc ++ [(k, v)]), rest)
        rw [parseStrBody_complete]
        show parseFieldsCont (parseVal fuel) (parseFields fuel) acc (String.mk k.data)
          (':' :: (stringifyChars v ++ '\x7d' :: rest)) = some (.obj (acc ++ [(k, v)]), rest)
        rw [parseFieldsCont.eq_def,
          show skipWs (':' :: (stringifyChars v ++ '\x7d' :: rest)) =
            ':' :: (stringifyChars v ++ '\x7d' :: rest) from skipWs_cons _ (by decide)]
        show (match parseVal fuel (stringifyChars v ++ '\x7d' :: rest) with
          | none => none
          | some (w, rest3) =>
            match skipWs rest3 with
            | ',' :: rest4 =>
              parseFields fuel rest4 (acc ++ [(String.mk k.data, w)])
            | '\x7d' :: rest4 => some (.obj (acc ++ [(String.mk k.data, w)]), rest4)
            | _ => none) = some (.obj (acc ++ [(k, v)]), rest)
        rw [ihV v ('\x7d' :: rest) hszv (noDigitStart_cons _ (by decide))]
        show some (Json.obj (acc ++ [(String.mk k.data, v)]), rest) =
          some (.obj (acc ++ [(k, v)]), rest)
        rw [string_mk_data]
      | cons f fs' =>
        have hszfs : jsizeF (f :: fs') ≤ fuel := by
          obtain ⟨k2, v2⟩ := f
          rw [jsizeF] at hs
          omega
        obtain ⟨k2, v2⟩ := f
        rw [show stringifyFields ((k, v) :: (k2, v2) :: fs') =
            strChars k ++ ':' :: stringifyChars v ++
              ',' :: stringifyFields ((k2, v2) :: fs') from rfl,
          show strChars k = '"' :: (escapeStr k.data ++ ['"']) from rfl]
        simp only [List.cons_append, List.append_assoc, List.singleton_append, List.nil_append]
        rw [show parseFields (fuel + 1)
              ('"' :: (escapeStr k.data ++ '"' :: (':' :: (stringifyChars v ++
                ',' :: (stringifyFields ((k2, v2) :: fs') ++ '\x7d' :: rest))))) acc =
            parseFieldsAux (parseVal fuel) (parseFields fuel)
              ('"' :: (escapeStr k.data ++ '"' :: (':' :: (stringifyChars v ++
                ',' :: (stringifyFields ((k2, v2) :: fs') ++ '\x7d' :: rest))))) acc from rfl,
          parseFieldsAux.eq_def]
        rw [show skipWs ('"' :: (escapeStr k.data ++ '"' :: (':' :: (stringifyChars v ++
            ',' :: (stringifyFields ((k2, v2) :: fs') ++ '\x7d' :: rest))))) =
          '"' :: (escapeStr k.data ++ '"' :: (':' :: (stringifyChars v ++
            ',' :: (stringifyFields ((k2, v2) :: fs') ++ '\x7d' :: rest))))
          from skipWs_cons _ (by decide)]
        show (match parseStrBody (escapeStr k.data ++ '"' :: (':' :: (stringifyChars v ++
            ',' :: (stringifyFields ((k2, v2) :: fs') ++ '\x7d' :: rest)))) with
          | none => none
          | some (kk, rest1) =>
            parseFieldsCont (parseVal fuel) (parseFields fuel) acc (String.mk kk) rest1) =
          some (.obj (acc ++ (k, v) :: (k2, v2) :: fs'), rest)
        rw [parseStrBody_complete]
        show parseFieldsCont (parseVal fuel) (parseFields fuel) acc (String.mk k.data)
          (':' :: (stringifyChars v ++ ',' :: (stringifyFields ((k2, v2) :: fs') ++
            '\x7d' :: rest))) = some (.obj (acc ++ (k, v) :: (k2, v2) :: fs'), rest)
        rw [parseFieldsCont.eq_def,
          show skipWs (':' :: (stringifyChars v ++ ',' :: (stringifyFields ((k2, v2) :: fs') ++
              '\x7d' :: rest))) =
            ':' :: (stringifyChars v ++ ',' :: (stringifyFields ((k2, v2) :: fs') ++
              '\x7d' :: rest)) from skipWs_cons _ (by decide)]
        show (match parseVal fuel (stringifyChars v ++ ',' ::
            (stringifyFields ((k2, v2) :: fs') ++ '\x7d' :: rest)) with
          | none => none
          | some (w, rest3) =>
            match skipWs rest3 with
            | ',' :: rest4 =>
              parseFields fuel rest4 (acc ++ [(String.mk k.data, w)])
            | '\x7d' :: rest4 => some (.obj (acc ++ [(String.mk k.data, w)]), rest4)
            | _ => none) = some (.obj (acc ++ (k, v) :: (k2, v2) :: fs'), rest)
        rw [ihV v (',' :: (stringifyFields ((k2, v2) :: fs') ++ '\x7d' :: rest)) hszv
          (noDigitStart_cons _ (by decide))]
        show parseFields fuel (stringifyFields ((k2, v2) :: fs') ++ '\x7d' :: rest)
          (acc ++ [(String.mk k.data, v)]) = some (.obj (acc ++ (k, v) :: (k2, v2) :: fs'), rest)
        rw [string_mk_data, ihF k2 v2 fs' (acc ++ [(k, v)]) rest hszfs]
        simp

mutual

theorem lenBoundV : ∀ v : Json, jsizeV v ≤ 2 * (stringifyChars v).length
  | .null => by simp [jsizeV, stringifyChars]
  | .bool true => by simp [jsizeV, stringifyChars]
  | .bool false => by simp [jsizeV, stringifyChars]
  | .num n => by
    have h := natChars_ne_nil n.toNat
    have h2 := natChars_ne_nil n.natAbs
    rw [jsizeV, show stringifyChars (.num n) = intChars n from rfl, intChars]
    by_cases hn : n < 0
    · rw [if_pos hn]
      simp
      omega
    · rw [if_neg hn]
      have : (natChars n.toNat).length ≠ 0 := by simpa using h
      omega
  | .str s => by
    rw [jsizeV, show stringifyChars (.str s) = strChars s from rfl, strChars]
    simp
    omega
  | .arr xs => by
    have h := lenBoundL xs
    rw [jsizeV, show stringifyChars (.arr xs) = '[' :: (stringifyElems xs ++ [']']) from rfl]
    simp only [List.length_cons, List.length_append, List.length_singleton]
    omega
  | .obj fs => by
    have h := lenBoundF fs
    rw [jsizeV, show stringifyChars (.obj fs) = '\x7b' :: (stringifyFields fs ++ ['\x7d'])
      from rfl]
    simp only [List.length_cons, List.length_append, List.length_singleton]
    omega

theorem lenBoundL : ∀ xs : List Json, jsizeL xs ≤ 2 * (stringifyElems xs).length + 1
  | [] => by simp [jsizeL]
  | [x] => by
    have h := lenBoundV x
    rw [jsizeL, jsizeL, show stringifyElems [x] = stringifyChars x from rfl]
    omega
  | x :: y :: ys => by
    have h1 := lenBoundV x
    have h2 := lenBoundL (y :: ys)
    rw [jsizeL, show stringifyElems (x :: y :: ys) =
      stringifyChars x ++ ',' :: stringifyElems (y :: ys) from rfl]
    simp only [List.length_append, List.length_cons]
    omega

theorem lenBoundF : ∀ fs : List (String × Json), jsizeF fs ≤ 2 * (stringifyFields fs).length + 1
  | [] => by simp [jsizeF]
  | [(k, v)] => by
    have h := lenBoundV v
    rw [jsizeF, jsizeF, show stringifyFields [(k, v)] = strChars k ++ ':' :: stringifyChars v
      from rfl]
    simp only [List.length_append, List.length_cons]
    omega
  | (k, v) :: f :: fs' => by
    have h1 := lenBoundV v
    have h2 := lenBoundF (f :: fs')
    rw [jsizeF, show stringifyFields ((k, v) :: f :: fs') = strChars k ++ ':' ::
      stringifyChars v ++ ',' :: stringifyFields (f :: fs') from rfl]
    simp only [List.length_append, List.length_cons]
    omega

end

/-- Round-trip of the modelled JavaScript builtins: `JSON.parse` returns
exactly the value `JSON.stringify` was applied to. -/
theorem jsonParse_stringify (v : Json) : jsonParse (jsonStringify v) = some v := by
  have hb := lenBoundV v
  have hc := (parse_complete (2 * (stringifyChars v).length + 2)).1 v []
    (by omega) trivial
  rw [List.append_nil] at hc
  rw [jsonStringify, jsonParse, show (String.mk (stringifyChars v)).data = stringifyChars v
    from rfl, hc]
  rfl

/-! ## DynamoDB model

The backend contract §6: a table of items addressed by a two-part key
`(PK, SK)`, kept in ascending key order (the order `query` returns);
`transactWriteItems` evaluates each operation's condition against the
state before the transaction and applies all operations or none. -/

inductive AttrValue where
  | S (s : String)
  | N (n : String)
deriving DecidableEq

abbrev Item := List (String × AttrValue)

abbrev Table := List Item

/-- First binding of attribute `k` in an item. -/
def lookupAttr (it : Item) (k : String) : Option AttrValue :=
  match it with
  | [] => none
  | (k', v) :: rest => if k' = k then some v else lookupAttr rest k

/-- `'k' in item` (JavaScript field-presence test). -/
def hasAttr (it : Item) (k : String) : Bool := (lookupAttr it k).isSome

/-- The partition key of an item (always stored as a string). -/
def itemPK (it : Item) : String :=
  match lookupAttr it "PK" with
  | some (.S s) => s
  | _ => ""

/-- The sort key of an item. -/
def itemSK (it : Item) : String :=
  match lookupAttr it "SK" with
  | some (.S s) => s
  | _ => ""

/-- Code-point lexicographic order on character lists: the order DynamoDB
applies to string sort keys. -/
def lexLt : List Char → List Char → Bool
  | [], [] => false
  | [], _ :: _ => true
  | _ :: _, [] => false
  | a :: as, b :: bs =>
    if a.toNat < b.toNat then true
    else if b.toNat < a.toNat then false
    else lexLt as bs

/-- String order used for DynamoDB keys. -/
def strLt (a b : String) : Bool := lexLt a.data b.data

/-- Order on items by `(PK, SK)`. -/
def keyLt (a b : Item) : Bool :=
  strLt (itemPK a) (itemPK b) || (itemPK a = itemPK b && strLt (itemSK a) (itemSK b))

/-- Insert an item at its key position (the table is kept key-sorted). -/
def insertItem (x : Item) : Table → Table
  | [] => [x]
  | y :: ys => if keyLt x y then x :: y :: ys else y :: insertItem x ys

/-- Remove the item stored at a key, if any. -/
def eraseKey (pk sk : String) (t : Table) : Table :=
  t.filter (fun it => !(itemPK it = pk && itemSK it = sk))

/-- The item stored at a key. -/
def getItem (t : Table) (pk sk : String) : Option Item :=
  t.find? (fun it => itemPK it = pk && itemSK it = sk)

/-- Store an item at its key, replacing any previous item there. -/
def putItem (t : Table) (x : Item) : Table := insertItem x (eraseKey (itemPK x) (itemSK x) t)

/-- All items of one partition, in ascending sort-key order (the DynamoDB
`query` with `KeyConditionExpression: 'PK = :stream'`). -/
def query (t : Table) (stream : String) : List Item :=
  t.filter (fun it => itemPK it = stream)

/-- Strict decimal reading of a DynamoDB number attribute (integral
values; the store only ever writes integral version counters). -/
def dynParseNatAll (ds : List Char) : Option Nat :=
  match takeDigits ds with
  | (ds1, []) => if ds1.isEmpty then none else some (valOfDigits ds1)
  | _ => none

/-- Numeric value of a DynamoDB `N` attribute. -/
def dynParseInt (s : String) : Option Int :=
  if s.data.head? = some '-' then (dynParseNatAll s.data.tail).map (fun n => -(n : Int))
  else (dynParseNatAll s.data).map (fun n => (n : Int))

/-- Decimal rendering of an integral number, as stored in an `N`
attribute. -/
def intToN (i : Int) : String := String.mk (intChars i)

/-- `parseInt` (JavaScript): skip leading whitespace, read an optional
sign and then the leading digit run, ignoring anything after it; `none`
models `NaN`.  (The base-16 `0x` prefix is not modelled; the store never
stores such a value.) -/
def jsParseInt (s : String) : Option Int :=
  let l := skipWs s.data
  if l.head? = some '-' then (parseNatTok l.tail).map (fun p => -(p.1 : Int))
  else if l.head? = some '+' then (parseNatTok l.tail).map (fun p => (p.1 : Int))
  else (parseNatTok l).map (fun p => (p.1 : Int))

/-! ## Embedding of `src/index.ts` -/

/-- `Event<T>`: a type discriminator and a payload (payloads are modelled
as JSON values, the domain of `JSON.stringify`). -/
structure Event where
  type : String
  data : Json

/-- The `Version` enum. -/
def Version.Any : Int := -1

/-- `Version.None`: the stream must not exist yet. -/
def Version.None : Int := -2

/-- A condition attached to the version update. -/
inductive CondExpr where
  | attrNotExists
  | versionEq (expected : Int)

/-- The `Update` built by `metadataUpdate`: `ADD #version :increment`
at `(PK = stream, SK = '_METADATA')` with an optional condition. -/
structure UpdateOp where
  tableName : String
  pk : String
  sk : String
  increment : Int
  condition : Option CondExpr

/-- The `Put` built by `eventInsert`. -/
structure PutOp where
  tableName : String
  item : Item

/-- `metadataUpdate` (src/index.ts:19-47): the unconditional `ADD
#version :increment` update, to which `expectedVersion === Version.None`
attaches `attribute_not_exists(PK)` and `expectedVersion > -1` attaches
`#version = :expected`, in that order. -/
def metadataUpdate (table stream : String) (expectedVersion : Int) : UpdateOp :=
  let update : UpdateOp :=
    { tableName := table, pk := stream, sk := "_METADATA", increment := 1, condition := none }
  let update := if expectedVersion = Version.None then
    { update with condition := some .attrNotExists } else update
  let update := if expectedVersion > -1 then
    { update with condition := some (.versionEq expectedVersion) } else update
  update

/-- The `ksuid` identifier supply (§4.1, external library): modelled as a
deterministic sequence of strings indexed by a per-store counter.  The
contract used is only what §4.1 demands: each identifier is a sortable
string and identifiers generated later sort strictly after identifiers
generated earlier (`idString_lt`), with uniqueness (`idString_inj`). -/
def idString (n : Nat) : String := String.mk (List.replicate n 'b' ++ ['a'])

/-- `eventInsert` (src/index.ts:49-67): an unconditional `Put` of the
event record, keyed by `EVENT-` followed by a fresh identifier. -/
def eventInsert (table stream : String) (event : Event) (id : String) : PutOp :=
  { tableName := table,
    item := [("PK", .S stream), ("SK", .S ("EVENT-" ++ id)),
             ("TYPE", .S event.type), ("DATA", .S (jsonStringify event.data))] }

/-- How a `transactWriteItems` call fails: a cancelled transaction whose
reason is a failed condition check (this is the concurrency conflict the
spec calls `ConcurrencyError`), or any other rejected request
(`BackendError`). -/
inductive DynError where
  | conditionalCheckFailed
  | validationError

/-- Evaluate a condition expression against the item at the operation's
key (DynamoDB semantics: on a nonexistent item, only
`attribute_not_exists` holds; `#version = :expected` fails). -/
def evalCond (t : Table) (pk sk : String) : CondExpr → Bool
  | .attrNotExists => (getItem t pk sk).isNone
  | .versionEq n =>
    match getItem t pk sk with
    | none => false
    | some it =>
      match lookupAttr it "VERSION" with
      | some (.N s) =>
        match dynParseInt s with
        | some val => val == n
        | none => false
      | _ => false

/-- Replace (or append) one attribute of an item. -/
def setAttr (it : Item) (k : String) (v : AttrValue) : Item :=
  match it with
  | [] => [(k, v)]
  | (k', v') :: rest => if k' = k then (k, v) :: rest else (k', v') :: setAttr rest k v

/-- Apply `ADD #version :increment` at the operation's key: a missing
item or attribute counts as 0 and the attribute is created; `ADD` on a
non-numeric attribute is a rejected request. -/
def applyUpdate (t : Table) (op : UpdateOp) : Except DynError Table :=
  match getItem t op.pk op.sk with
  | none =>
    .ok (putItem t [("PK", .S op.pk), ("SK", .S op.sk), ("VERSION", .N (intToN op.increment))])
  | some it =>
    match lookupAttr it "VERSION" with
    | none => .ok (putItem t (setAttr it "VERSION" (.N (intToN op.increment))))
    | some (.N s) =>
      match dynParseInt s with
      | some val => .ok (putItem t (setAttr it "VERSION" (.N (intToN (val + op.increment)))))
      | none => .error .validationError
    | some (.S _) => .error .validationError

/-- `transactWriteItems` with the two operations `write` submits: the
condition is evaluated against the state before the transaction; both
operations are applied, or none is and the transaction is cancelled. -/
def transactWrite (t : Table) (upd : UpdateOp) (put : PutOp) : Except DynError Table :=
  let condOk := match upd.condition with
    | none => true
    | some c => evalCond t upd.pk upd.sk c
  if condOk then
    match applyUpdate t upd with
    | .error e => .error e
    | .ok t1 => .ok (putItem t1 put.item)
  else .error .conditionalCheckFailed

/-- The `EventStore`: the injected table name and client handle; the
durable table state and the identifier-supply counter stand for the
state held by the backend and by `ksuid`. -/
structure EventStore where
  tableName : String
  table : Table
  nextId : Nat

/-- `EventStore.write` (src/index.ts:78-89): submit the version update
and the event insert as one transaction.  A failed transaction leaves
the store unchanged (the caller keeps `st`). -/
def EventStore.write (st : EventStore) (stream : String) (event : Event)
    (expectedVersion : Int := Version.Any) : Except DynError EventStore :=
  match transactWrite st.table (metadataUpdate st.tableName stream expectedVersion)
      (eventInsert st.tableName stream event (idString st.nextId)) with
  | .ok t => .ok { st with table := t, nextId := st.nextId + 1 }
  | .error e => .error e

/-- How `read` throws: `item.TYPE.S` on an absent attribute is a
`TypeError`; `JSON.parse` on a malformed payload is a `SyntaxError`. -/
inductive JsError where
  | typeError
  | syntaxError

/-- `EventStream`: the snapshot `read` returns.  `version` is a
JavaScript number (`none` models `NaN` from `parseInt`); `events` is the
array materialized inside `read`, which the returned generator replays
element by element. -/
structure EventStream where
  name : String
  version : Option Int
  events : List Event

/-- The string the loop reads a version number from:
`item['VERSION'].N || '0'`. -/
def versionN (it : Item) : String :=
  match lookupAttr it "VERSION" with
  | some (.N s) => s
  | _ => "0"

/-- Decoding of one event record inside the `read` loop:
`{type: item.TYPE.S || '', data: JSON.parse(item.DATA.S || '')}`.
`item.TYPE.S` on an absent attribute throws a `TypeError`;
`JSON.parse` on a malformed payload throws a `SyntaxError`. -/
def decodeEvent (it : Item) : Except JsError Event :=
  match lookupAttr it "TYPE" with
  | none => .error .typeError
  | some tv =>
    match lookupAttr it "DATA" with
    | none => .error .typeError
    | some dv =>
      let ty := match tv with
        | .S s => s
        | _ => ""
      let ds := match dv with
        | .S s => s
        | _ => ""
      match jsonParse ds with
      | none => .error .syntaxError
      | some d => .ok { type := ty, data := d }

/-- The `for (const item of result.Items)` loop of `read`: an item
carrying a `VERSION` attribute overwrites `version` via
`parseInt(item['VERSION'].N || '0')`; any other item is decoded as an
event and appended.  Decoding happens here, inside the loop. -/
def readLoop : List Item → Option Int → List Event → Except JsError (Option Int × List Event)
  | [], version, events => .ok (version, events)
  | it :: rest, version, events =>
    if hasAttr it "VERSION" then
      readLoop rest (jsParseInt (versionN it)) events
    else
      match decodeEvent it with
      | .error e => .error e
      | .ok ev => readLoop rest version (events ++ [ev])

/-- `EventStore.read` (src/index.ts:91-123): one `query` over the
stream's partition, then the decoding loop, then the snapshot. -/
def EventStore.read (st : EventStore) (stream : String) : Except JsError EventStream :=
  match readLoop (query st.table stream) (some 0) [] with
  | .error e => .error e
  | .ok (version, events) => .ok { name := stream, version := version, events := events }

/-- A store over a freshly created, empty table. -/
def emptyStore (tableName : String) : EventStore :=
  { tableName := tableName, table := [], nextId := 0 }

/-! ## Number round-trips and observers -/

theorem dynParseNatAll_natChars (n : Nat) : dynParseNatAll (natChars n) = some n := by
  have h := takeDigits_append (natChars n) [] (natChars_digits n) trivial
  rw [List.append_nil] at h
  obtain ⟨d, ds, hd, -⟩ := natChars_head n
  rw [dynParseNatAll, h, hd]
  show (if (d :: ds).isEmpty then none else some (valOfDigits (d :: ds))) = some n
  rw [if_neg (by simp), ← hd, valOfDigits_natChars]

theorem dynParseInt_intToN (i : Int) : dynParseInt (intToN i) = some i := by
  by_cases hi : i < 0
  · rw [intToN, intChars, if_pos hi, dynParseInt]
    rw [if_pos (show (String.mk ('-' :: natChars i.natAbs)).data.head? = some '-' from rfl)]
    show (dynParseNatAll (natChars i.natAbs)).map (fun n => -(n : Int)) = some i
    rw [dynParseNatAll_natChars]
    show some (-(i.natAbs : Int)) = some i
    congr 1
    omega
  · rw [intToN, intChars, if_neg hi, dynParseInt]
    obtain ⟨d, ds, hd, hdig⟩ := natChars_head i.toNat
    have hne : d ≠ '-' := by
      apply char_ne_of_toNat_ne
      rw [show ('-').toNat = 45 from rfl]
      simp [isDigitC] at hdig
      omega
    rw [if_neg (by
      show (String.mk (natChars i.toNat)).data.head? ≠ some '-'
      rw [show (String.mk (natChars i.toNat)).data = natChars i.toNat from rfl, hd]
      simpa using hne)]
    show (dynParseNatAll (natChars i.toNat)).map (fun n => (n : Int)) = some i
    rw [dynParseNatAll_natChars]
    show some ((i.toNat : Int)) = some i
    congr 1
    omega

theorem parseNatTok_natChars (n : Nat) : parseNatTok (natChars n) = some (n, []) := by
  have h := parseNatTok_complete n [] trivial
  rwa [List.append_nil] at h

theorem jsParseInt_intToN (i : Int) (h : 0 ≤ i) : jsParseInt (intToN i) = some i := by
  rw [intToN, intChars, if_neg (by omega), jsParseInt]
  obtain ⟨d, ds, hd, hdig⟩ := natChars_head i.toNat
  have hb : 48 ≤ d.toNat ∧ d.toNat ≤ 57 := by simpa [isDigitC] using hdig
  have hws : skipWs (String.mk (natChars i.toNat)).data = natChars i.toNat := by
    rw [show (String.mk (natChars i.toNat)).data = natChars i.toNat from rfl, hd]
    exact skipWs_cons _ (isWs_false_of_digit hdig)
  simp only [hws]
  rw [if_neg (by
      rw [hd]
      simp only [List.head?_cons, Option.some.injEq]
      exact char_ne_of_toNat_ne (by rw [show ('-').toNat = 45 from rfl]; omega)),
    if_neg (by
      rw [hd]
      simp only [List.head?_cons, Option.some.injEq]
      exact char_ne_of_toNat_ne (by rw [show ('+').toNat = 43 from rfl]; omega)),
    parseNatTok_natChars]
  simp only [Option.map_some', Option.some.injEq]
  omega

/-- Whether a stream has a version record. -/
def hasStream (st : EventStore) (s : String) : Bool :=
  (getItem st.table s "_METADATA").isSome

/-- The stored version counter of a stream (0 when the stream has never
been written). -/
def versionOf (st : EventStore) (s : String) : Int :=
  match getItem st.table s "_METADATA" with
  | some it =>
    match lookupAttr it "VERSION" with
    | some (.N str) => (dynParseInt str).getD 0
    | _ => 0
  | none => 0

/-- The decodable event records of a stream's partition, in ascending
sort-key order. -/
def eventsOf (st : EventStore) (s : String) : List Event :=
  (query st.table s).filterMap (fun it =>
    if hasAttr it "VERSION" then none else (decodeEvent it).toOption)

/-! ## Order lemmas for the key order -/

theorem lexLt_trans : ∀ {a b c : List Char},
    lexLt a b = true → lexLt b c = true → lexLt a c = true
  | [], [], _, h1, _ => by simp [lexLt] at h1
  | [], _ :: _, [], _, h2 => by simp [lexLt] at h2
  | [], _ :: _, _ :: _, _, _ => rfl
  | _ :: _, [], _, h1, _ => by simp [lexLt] at h1
  | _ :: _, _ :: _, [], _, h2 => by simp [lexLt] at h2
  | x :: xs, y :: ys, z :: zs, h1, h2 => by
    simp only [lexLt] at h1 h2 ⊢
    by_cases hxy : x.toNat < y.toNat
    · by_cases hyz : y.toNat < z.toNat
      · rw [if_pos (by omega)]
      · rw [if_neg hyz] at h2
        by_cases hzy : z.toNat < y.toNat
        · rw [if_pos hzy] at h2
          exact Bool.noConfusion h2
        · rw [if_pos (by omega)]
    · rw [if_neg hxy] at h1
      by_cases hyx : y.toNat < x.toNat
      · rw [if_pos hyx] at h1
        exact Bool.noConfusion h1
      · rw [if_neg hyx] at h1
        by_cases hyz : y.toNat < z.toNat
        · rw [if_pos (by omega)]
        · rw [if_neg hyz] at h2
          by_cases hzy : z.toNat < y.toNat
          · rw [if_pos hzy] at h2
            exact Bool.noConfusion h2
          · rw [if_neg hzy] at h2
            rw [if_neg (by omega), if_neg (by omega)]
            exact lexLt_trans h1 h2

theorem lexLt_irrefl : ∀ a : List Char, lexLt a a = false
  | [] => rfl
  | x :: xs => by
    simp only [lexLt]
    rw [if_neg (by omega), if_neg (by omega)]
    exact lexLt_irrefl xs

theorem eq_of_lexLt_false : ∀ {a b : List Char},
    lexLt a b = false → lexLt b a = false → a = b
  | [], [], _, _ => rfl
  | [], _ :: _, h1, _ => by simp [lexLt] at h1
  | _ :: _, [], _, h2 => by simp [lexLt] at h2
  | x :: xs, y :: ys, h1, h2 => by
    simp only [lexLt] at h1 h2
    by_cases hxy : x.toNat < y.toNat
    · rw [if_pos hxy] at h1
      exact Bool.noConfusion h1
    · rw [if_neg hxy] at h1
      by_cases hyx : y.toNat < x.toNat
      · rw [if_pos hyx] at h2
        exact Bool.noConfusion h2
      · rw [if_neg hyx] at h1
        have hx : x = y := char_eq_of_toNat_eq (by omega)
        rw [hx, eq_of_lexLt_false h1 (by rw [if_neg hyx, if_neg hxy] at h2; exact h2)]

theorem strLt_trans {a b c : String} (h1 : strLt a b = true) (h2 : strLt b c = true) :
    strLt a c = true := lexLt_trans h1 h2

theorem strLt_irrefl (a : String) : strLt a a = false := lexLt_irrefl a.data

theorem eq_of_strLt_false {a b : String} (h1 : strLt a b = false) (h2 : strLt b a = false) :
    a = b := String.ext (eq_of_lexLt_false h1 h2)

theorem strLt_asymm {a b : String} (h : strLt a b = true) : strLt b a = false := by
  by_contra hc
  have : strLt b a = true := by
    cases hb : strLt b a
    · exact absurd hb hc
    · rfl
  have := strLt_trans h this
  rw [strLt_irrefl] at this
  exact Bool.noConfusion this

theorem keyLt_trans {a b c : Item} (h1 : keyLt a b = true) (h2 : keyLt b c = true) :
    keyLt a c = true := by
  simp only [keyLt, Bool.or_eq_true, Bool.and_eq_true, decide_eq_true_eq] at h1 h2 ⊢
  rcases h1 with h1 | ⟨h1e, h1s⟩ <;> rcases h2 with h2 | ⟨h2e, h2s⟩
  · exact Or.inl (strLt_trans h1 h2)
  · rw [h2e] at h1
    exact Or.inl h1
  · rw [h1e]
    exact Or.inl h2
  · exact Or.inr ⟨h1e.trans h2e, strLt_trans h1s h2s⟩

theorem keyLt_irrefl (a : Item) : keyLt a a = false := by
  simp [keyLt, strLt_irrefl]

theorem keyLt_asymm {a b : Item} (h : keyLt a b = true) : keyLt b a = false := by
  by_contra hc
  have hba : keyLt b a = true := by
    cases hb : keyLt b a
    · exact absurd hb hc
    · rfl
  have := keyLt_trans h hba
  rw [keyLt_irrefl] at this
  exact Bool.noConfusion this

theorem keyLt_total {a b : Item} (h : ¬ (itemPK a = itemPK b ∧ itemSK a = itemSK b)) :
    keyLt a b = true ∨ keyLt b a = true := by
  by_cases hab : keyLt a b = true
  · exact Or.inl hab
  right
  simp only [keyLt, Bool.or_eq_true, Bool.and_eq_true, decide_eq_true_eq] at hab ⊢
  push_neg at hab
  obtain ⟨hp1, hp2⟩ := hab
  by_cases hpb : strLt (itemPK b) (itemPK a) = true
  · exact Or.inl hpb
  have hpe : itemPK a = itemPK b :=
    eq_of_strLt_false (by cases h : strLt (itemPK a) (itemPK b); rfl; exact absurd h hp1)
      (by cases h : strLt (itemPK b) (itemPK a); rfl; exact absurd h hpb)
  right
  refine ⟨hpe.symm, ?_⟩
  have hs1 : strLt (itemSK a) (itemSK b) = false := by
    cases hx : strLt (itemSK a) (itemSK b)
    · rfl
    · exact absurd hx (hp2 hpe)
  cases hx : strLt (itemSK b) (itemSK a)
  · exact absurd (eq_of_strLt_false hs1 hx) (fun he => h ⟨hpe, he⟩)
  · rfl

/-! ## Table-operation lemmas -/

theorem mem_insertItem {a x : Item} : ∀ {l : Table}, a ∈ insertItem x l ↔ a = x ∨ a ∈ l
  | [] => by simp [insertItem]
  | y :: ys => by
    rw [insertItem]
    by_cases h : keyLt x y = true
    · rw [if_pos h]
      simp [or_comm, or_assoc, or_left_comm]
    · rw [if_neg h]
      simp [mem_insertItem (l := ys)]
      tauto

theorem find?_insertItem_of_neg {p : Item → Bool} {x : Item} (hx : p x = false) :
    ∀ l : Table, (insertItem x l).find? p = l.find? p
  | [] => by simp [insertItem, List.find?, hx]
  | y :: ys => by
    rw [insertItem]
    by_cases h : keyLt x y = true
    · rw [if_pos h, List.find?_cons_of_neg _ (by simp [hx])]
    · rw [if_neg h]
      by_cases hy : p y = true
      · rw [List.find?_cons_of_pos _ hy, List.find?_cons_of_pos _ hy]
      · rw [List.find?_cons_of_neg _ hy, List.find?_cons_of_neg _ hy,
          find?_insertItem_of_neg hx ys]

theorem find?_insertItem_of_pos {p : Item → Bool} {x : Item} (hx : p x = true) :
    ∀ l : Table, (∀ y ∈ l, p y = false) → (insertItem x l).find? p = some x
  | [], _ => by simp [insertItem, List.find?, hx]
  | y :: ys, hl => by
    rw [insertItem]
    by_cases h : keyLt x y = true
    · rw [if_pos h, List.find?_cons_of_pos _ hx]
    · rw [if_neg h, List.find?_cons_of_neg _ (by simp [hl y (List.mem_cons_self y ys)]),
        find?_insertItem_of_pos hx ys (fun z hz => hl z (List.mem_cons_of_mem y hz))]

theorem find?_filter_imp {p q : Item → Bool} (h : ∀ a, p a = true → q a = true) :
    ∀ l : Table, (l.filter q).find? p = l.find? p
  | [] => rfl
  | y :: ys => by
    rw [List.filter_cons]
    by_cases hq : q y = true
    · rw [if_pos hq]
      by_cases hp : p y = true
      · rw [List.find?_cons_of_pos _ hp, List.find?_cons_of_pos _ hp]
      · rw [List.find?_cons_of_neg _ hp, List.find?_cons_of_neg _ hp, find?_filter_imp h ys]
    · rw [if_neg hq, List.find?_cons_of_neg _ (fun hp => hq (h y hp)), find?_filter_imp h ys]

theorem find?_filter (p q : Item → Bool) :
    ∀ l : Table, (l.filter q).find? p = l.find? (fun a => q a && p a)
  | [] => rfl
  | y :: ys => by
    rw [List.filter_cons]
    by_cases hq : q y = true
    · rw [if_pos hq]
      by_cases hp : p y = true
      · rw [List.find?_cons_of_pos _ hp, List.find?_cons_of_pos _ (by simp [hp, hq])]
      · rw [List.find?_cons_of_neg _ hp, List.find?_cons_of_neg _ (by simp [hp, hq]),
          find?_filter p q ys]
    · rw [if_neg hq, List.find?_cons_of_neg _ (by simp [hq]), find?_filter p q ys]

theorem getItem_putItem_self (t : Table) (x : Item) :
    getItem (putItem t x) (itemPK x) (itemSK x) = some x := by
  rw [getItem, putItem, find?_insertItem_of_pos (by simp) _ ?_]
  intro y hy
  have hkept := List.of_mem_filter hy
  simp only [Bool.not_eq_true', Bool.and_eq_false_iff, decide_eq_false_iff_not] at hkept
  simp only [Bool.and_eq_false_iff, decide_eq_false_iff_not]
  exact hkept

theorem getItem_putItem_ne (t : Table) (x : Item) {pk sk : String}
    (h : ¬(itemPK x = pk ∧ itemSK x = sk)) :
    getItem (putItem t x) pk sk = getItem t pk sk := by
  rw [getItem, putItem, find?_insertItem_of_neg (by
    simp only [Bool.and_eq_false_iff, decide_eq_false_iff_not]
    tauto)]
  rw [show List.find? (fun it => itemPK it = pk && itemSK it = sk)
      (eraseKey (itemPK x) (itemSK x) t) =
    (eraseKey (itemPK x) (itemSK x) t).find? (fun it => itemPK it = pk && itemSK it = sk)
    from rfl, eraseKey, find?_filter_imp]
  · rfl
  · intro a ha
    simp only [Bool.and_eq_true, decide_eq_true_eq] at ha
    simp only [Bool.not_eq_true', Bool.and_eq_false_iff, decide_eq_false_iff_not]
    by_cases hpk : itemPK a = itemPK x
    · right
      intro hsk
      exact h ⟨hpk.symm.trans ha.1, hsk.symm.trans ha.2⟩
    · exact Or.inl hpk

theorem filter_insertItem_of_neg {p : Item → Bool} {x : Item} (hx : p x = false) :
    ∀ l : Table, (insertItem x l).filter p = l.filter p
  | [] => by simp [insertItem, List.filter, hx]
  | y :: ys => by
    rw [insertItem]
    by_cases h : keyLt x y = true
    · rw [if_pos h, List.filter_cons, if_neg (by simp [hx])]
    · rw [if_neg h, List.filter_cons, List.filter_cons, filter_insertItem_of_neg hx ys]

/-- Filtering commutes with sorted insertion: the kept elements keep
their relative order, and the inserted element lands at its place among
them. -/
theorem filter_insertItem_of_pos {p : Item → Bool} {x : Item} (hx : p x = true) :
    ∀ l : Table, l.Pairwise (fun a b => keyLt a b = true) →
      (insertItem x l).filter p = insertItem x (l.filter p)
  | [], _ => by simp [insertItem, List.filter, hx]
  | y :: ys, hl => by
    rw [insertItem]
    by_cases h : keyLt x y = true
    · rw [if_pos h]
      have hall : ∀ z ∈ y :: ys, keyLt x z = true := by
        intro z hz
        rcases List.mem_cons.mp hz with rfl | hz
        · exact h
        · exact keyLt_trans h (List.rel_of_pairwise_cons hl hz)
      rw [List.filter_cons, if_pos (by simp [hx])]
      cases hf : (y :: ys).filter p with
      | nil => simp [insertItem, hf]
      | cons z zs =>
        have hz : z ∈ (y :: ys).filter p := by
          rw [hf]
          exact List.mem_cons_self z zs
        have hzmem : z ∈ y :: ys := List.mem_of_mem_filter hz
        rw [insertItem, if_pos (hall z hzmem)]
    · rw [if_neg h, List.filter_cons, List.filter_cons]
      by_cases hy : p y = true
      · rw [if_pos (by simp [hy]), if_pos (by simp [hy]),
          filter_insertItem_of_pos hx ys (List.Pairwise.sublist (List.sublist_cons_self y ys) hl),
          insertItem, if_neg h]
      · rw [if_neg (by simp [hy]), if_neg (by simp [hy]),
          filter_insertItem_of_pos hx ys (List.Pairwise.sublist (List.sublist_cons_self y ys) hl)]

theorem pairwise_insertItem {x : Item} :
    ∀ {l : Table}, l.Pairwise (fun a b => keyLt a b = true) →
      (∀ y ∈ l, keyLt x y = true ∨ keyLt y x = true) →
      (insertItem x l).Pairwise (fun a b => keyLt a b = true)
  | [], _, _ => by simp [insertItem]
  | y :: ys, hl, hx => by
    rw [insertItem]
    by_cases h : keyLt x y = true
    · rw [if_pos h]
      refine List.Pairwise.cons ?_ hl
      intro z hz
      rcases List.mem_cons.mp hz with rfl | hz
      · exact h
      · exact keyLt_trans h (List.rel_of_pairwise_cons hl hz)
    · rw [if_neg h]
      have hxy : keyLt y x = true := by
        rcases hx y (List.mem_cons_self y ys) with h1 | h1
        · exact absurd h1 h
        · exact h1
      refine List.Pairwise.cons ?_ (pairwise_insertItem
        (List.Pairwise.sublist (List.sublist_cons_self y ys) hl)
        (fun z hz => hx z (List.mem_cons_of_mem y hz)))
      intro z hz
      rcases mem_insertItem.mp hz with rfl | hz
      · exact hxy
      · exact List.rel_of_pairwise_cons hl hz

theorem insertItem_append_last {x : Item} :
    ∀ {l : Table}, (∀ y ∈ l, keyLt x y = false) → insertItem x l = l ++ [x]
  | [], _ => rfl
  | y :: ys, h => by
    rw [insertItem, if_neg (by simp [h y (List.mem_cons_self y ys)]),
      insertItem_append_last (fun z hz => h z (List.mem_cons_of_mem y hz))]
    rfl

theorem insertItem_before_last {x m : Item} (hm : keyLt x m = true) :
    ∀ {l : Table}, (∀ y ∈ l, keyLt x y = false) → insertItem x (l ++ [m]) = l ++ [x, m]
  | [], _ => by simp [insertItem, hm]
  | y :: ys, h => by
    rw [List.cons_append, insertItem, if_neg (by simp [h y (List.mem_cons_self y ys)]),
      insertItem_before_last hm (fun z hz => h z (List.mem_cons_of_mem y hz))]
    rfl

/-! ## Key comparison facts -/

theorem lexLt_append_same (p : List Char) (a b : List Char) :
    lexLt (p ++ a) (p ++ b) = lexLt a b := by
  induction p with
  | nil => rfl
  | cons c cs ih =>
    rw [List.cons_append, List.cons_append, lexLt, if_neg (by omega), if_neg (by omega), ih]

theorem strLt_event_meta (id : String) : strLt ("EVENT-" ++ id) "_METADATA" = true := by
  rw [strLt, String.data_append]
  show lexLt ('E' :: ("VENT-".data ++ id.data)) ('_' :: "METADATA".data) = true
  rw [lexLt, if_pos (by decide)]

theorem event_sk_ne_meta (id : String) : "EVENT-" ++ id ≠ "_METADATA" := by
  intro h
  have := strLt_event_meta id
  rw [h, strLt_irrefl] at this
  exact Bool.noConfusion this

theorem idString_lt : ∀ {m n : Nat}, m < n → strLt (idString m) (idString n) = true := by
  intro m
  induction m with
  | zero =>
    intro n h
    match n, h with
    | n' + 1, _ =>
      show lexLt (List.replicate 0 'b' ++ ['a']) (List.replicate (n' + 1) 'b' ++ ['a']) = true
      rw [List.replicate_zero, List.nil_append, List.replicate_succ, List.cons_append, lexLt,
        if_pos (by decide)]
  | succ m' ih =>
    intro n h
    match n, h with
    | n' + 1, h =>
      show lexLt (List.replicate (m' + 1) 'b' ++ ['a'])
        (List.replicate (n' + 1) 'b' ++ ['a']) = true
      rw [List.replicate_succ, List.replicate_succ, List.cons_append, List.cons_append, lexLt,
        if_neg (by omega), if_neg (by omega)]
      exact ih (by omega)

theorem strLt_event_event {a b : String} (h : strLt a b = true) :
    strLt ("EVENT-" ++ a) ("EVENT-" ++ b) = true := by
  rw [strLt, String.data_append, String.data_append, show ("EVENT-").data ++ a.data =
    "EVENT-".data ++ a.data from rfl, lexLt_append_same]
  exact h

/-! ## The store invariant

Every reachable table is key-sorted and contains only the two record
shapes the write path produces: version records and event records keyed
by already-generated identifiers. -/

/-- The version record of a stream, as created and maintained by the
`ADD #version :increment` update. -/
def metaItem (stream : String) (v : Int) : Item :=
  [("PK", .S stream), ("SK", .S "_METADATA"), ("VERSION", .N (intToN v))]

/-- The event record built by `eventInsert`. -/
def eventItem (stream : String) (e : Event) (id : String) : Item :=
  [("PK", .S stream), ("SK", .S ("EVENT-" ++ id)),
   ("TYPE", .S e.type), ("DATA", .S (jsonStringify e.data))]

theorem eventInsert_item (tbl s : String) (e : Event) (id : String) :
    (eventInsert tbl s e id).item = eventItem s e id := rfl

/-- The record shapes a reachable table may contain. -/
inductive ItemShape (nextId : Nat) : Item → Prop where
  | meta (stream : String) (v : Nat) (hv : 1 ≤ v) : ItemShape nextId (metaItem stream (v : Int))
  | event (stream : String) (e : Event) (j : Nat) (hj : j < nextId) :
      ItemShape nextId (eventItem stream e (idString j))

/-- Invariant of every store state reachable through the public API. -/
structure StoreInv (st : EventStore) : Prop where
  sorted : st.table.Pairwise (fun a b => keyLt a b = true)
  shape : ∀ it ∈ st.table, ItemShape st.nextId it

theorem inv_emptyStore (tbl : String) : StoreInv (emptyStore tbl) :=
  ⟨List.Pairwise.nil, fun _ h => absurd h (List.not_mem_nil _)⟩

theorem itemPK_metaItem (s : String) (v : Int) : itemPK (metaItem s v) = s := rfl

theorem itemSK_metaItem (s : String) (v : Int) : itemSK (metaItem s v) = "_METADATA" := rfl

theorem itemPK_eventItem (s : String) (e : Event) (id : String) :
    itemPK (eventItem s e id) = s := rfl

theorem itemSK_eventItem (s : String) (e : Event) (id : String) :
    itemSK (eventItem s e id) = "EVENT-" ++ id := rfl

theorem hasAttr_metaItem (s : String) (v : Int) : hasAttr (metaItem s v) "VERSION" = true := rfl

theorem hasAttr_eventItem (s : String) (e : Event) (id : String) :
    hasAttr (eventItem s e id) "VERSION" = false := rfl

theorem versionN_metaItem (s : String) (v : Int) : versionN (metaItem s v) = intToN v := rfl

theorem decodeEvent_eventItem (s : String) (e : Event) (id : String) :
    decodeEvent (eventItem s e id) = .ok e := by
  show (match jsonParse (jsonStringify e.data) with
    | none => (.error .syntaxError : Except JsError Event)
    | some d => .ok { type := e.type, data := d }) = .ok e
  rw [jsonParse_stringify]

theorem keyLt_event_meta (s : String) (e : Event) (id : String) (v : Int) :
    keyLt (eventItem s e id) (metaItem s v) = true := by
  simp [keyLt, itemPK_eventItem, itemPK_metaItem, itemSK_eventItem, itemSK_metaItem,
    strLt_event_meta]

theorem keyLt_event_event (s : String) (e1 e2 : Event) {j1 j2 : Nat} (h : j1 < j2) :
    keyLt (eventItem s e1 (idString j1)) (eventItem s e2 (idString j2)) = true := by
  simp [keyLt, itemPK_eventItem, itemSK_eventItem, strLt_event_event (idString_lt h)]

theorem getItem_meta_of_inv {st : EventStore} {s : String} {it : Item} (hInv : StoreInv st)
    (hsome : getItem st.table s "_METADATA" = some it) :
    ∃ v : Nat, 1 ≤ v ∧ it = metaItem s (v : Int) := by
  have hmem : it ∈ st.table := List.mem_of_find?_eq_some hsome
  have hpred := List.find?_some hsome
  simp only [Bool.and_eq_true, decide_eq_true_eq] at hpred
  cases hInv.shape it hmem with
  | meta stream v hv =>
    refine ⟨v, hv, ?_⟩
    have : stream = s := by
      have := hpred.1
      rwa [itemPK_metaItem] at this
    rw [this]
  | event stream e j hj =>
    exfalso
    have := hpred.2
    rw [itemSK_eventItem] at this
    exact event_sk_ne_meta _ this

/-- Decoded event records of a list of items, skipping version records:
the partition `read`'s loop performs. -/
def decodedEvents (items : List Item) : List Event :=
  items.filterMap (fun it => if hasAttr it "VERSION" then none else (decodeEvent it).toOption)

theorem eventsOf_eq (st : EventStore) (s : String) :
    eventsOf st s = decodedEvents (query st.table s) := rfl

theorem decodedEvents_nil : decodedEvents [] = [] := rfl

theorem decodedEvents_append (l1 l2 : List Item) :
    decodedEvents (l1 ++ l2) = decodedEvents l1 ++ decodedEvents l2 := by
  simp [decodedEvents]

theorem decodedEvents_eventItem_cons (s : String) (e : Event) (id : String) (rest : List Item) :
    decodedEvents (eventItem s e id :: rest) = e :: decodedEvents rest := by
  rw [decodedEvents, List.filterMap_cons]
  rw [show (if hasAttr (eventItem s e id) "VERSION" then none
      else (decodeEvent (eventItem s e id)).toOption) = some e from by
    rw [if_neg (by rw [hasAttr_eventItem]; exact Bool.false_ne_true), decodeEvent_eventItem]
    rfl]
  rfl

theorem decodedEvents_metaItem (s : String) (v : Int) (rest : List Item) :
    decodedEvents (metaItem s v :: rest) = decodedEvents rest := by
  rw [decodedEvents, List.filterMap_cons, if_pos (hasAttr_metaItem s v)]
  rfl

/-! ## Decomposition of a stream's partition -/

theorem query_decomp_aux (nextId : Nat) (s : String) : ∀ Q : Table,
    Q.Pairwise (fun a b => keyLt a b = true) →
    (∀ y ∈ Q, ItemShape nextId y ∧ itemPK y = s) →
    ∃ evs, (∀ y ∈ evs, ∃ e j, j < nextId ∧ y = eventItem s e (idString j)) ∧
      ((Q = evs ∧ Q.find? (fun it => itemSK it = "_METADATA") = none) ∨
       (∃ v : Nat, 1 ≤ v ∧ Q = evs ++ [metaItem s (v : Int)] ∧
         Q.find? (fun it => itemSK it = "_METADATA") = some (metaItem s (v : Int))))
  | [], _, _ => ⟨[], by simp, Or.inl ⟨rfl, rfl⟩⟩
  | it :: Q', hp, hsh => by
    have hit := hsh it (List.mem_cons_self it Q')
    cases hit.1 with
    | event stream e j hj =>
      have hst : stream = s := by
        have := hit.2
        rwa [itemPK_eventItem] at this
      rw [hst] at hp hsh ⊢
      obtain ⟨evs', hevs', hdisj⟩ := query_decomp_aux nextId s Q'
        (List.Pairwise.sublist (List.sublist_cons_self _ _) hp)
        (fun y hy => hsh y (List.mem_cons_of_mem _ hy))
      have hskne : ¬ (itemSK (eventItem s e (idString j)) = "_METADATA") := by
        rw [itemSK_eventItem]
        exact event_sk_ne_meta _
      refine ⟨eventItem s e (idString j) :: evs', ?_, ?_⟩
      · intro y hy
        rcases List.mem_cons.mp hy with rfl | hy
        · exact ⟨e, j, hj, rfl⟩
        · exact hevs' y hy
      · rcases hdisj with ⟨hq, hf⟩ | ⟨v, hv, hq, hf⟩
        · exact Or.inl ⟨by rw [hq],
            by rw [List.find?_cons_of_neg _ (by simpa using hskne), hf]⟩
        · exact Or.inr ⟨v, hv, by rw [hq, List.cons_append],
            by rw [List.find?_cons_of_neg _ (by simpa using hskne), hf]⟩
    | meta stream v hv =>
      have hst : stream = s := by
        have := hit.2
        rwa [itemPK_metaItem] at this
      rw [hst] at hp hsh ⊢
      have hQ' : Q' = [] := by
        cases hq' : Q' with
        | nil => rfl
        | cons z zs =>
          exfalso
          have hrel := List.rel_of_pairwise_cons hp (by rw [hq']; exact List.mem_cons_self z zs)
          have hz := hsh z (by rw [hq']; exact List.mem_cons_of_mem _ (List.mem_cons_self z zs))
          cases hz.1 with
          | event s2 e2 j2 hj2 =>
            have hs2 : s2 = s := by
              have := hz.2
              rwa [itemPK_eventItem] at this
            subst hs2
            rw [keyLt, itemPK_metaItem, itemPK_eventItem, itemSK_metaItem, itemSK_eventItem,
              strLt_irrefl, strLt_asymm (strLt_event_meta _)] at hrel
            simp at hrel
          | meta s2 v2 hv2 =>
            have hs2 : s2 = s := by
              have := hz.2
              rwa [itemPK_metaItem] at this
            subst hs2
            rw [keyLt, itemPK_metaItem, itemPK_metaItem, itemSK_metaItem, itemSK_metaItem,
              strLt_irrefl, strLt_irrefl] at hrel
            simp at hrel
      subst hQ'
      refine ⟨[], by simp, Or.inr ⟨v, hv, by simp, ?_⟩⟩
      rw [List.find?_cons_of_pos _ (by simp [itemSK_metaItem])]

theorem query_decomp {st : EventStore} (hInv : StoreInv st) (s : String) :
    ∃ evs : List Item,
      (∀ y ∈ evs, ∃ e j, j < st.nextId ∧ y = eventItem s e (idString j)) ∧
      ((query st.table s = evs ∧ getItem st.table s "_METADATA" = none) ∨
       (∃ v : Nat, 1 ≤ v ∧ query st.table s = evs ++ [metaItem s (v : Int)] ∧
         getItem st.table s "_METADATA" = some (metaItem s (v : Int)))) := by
  have hgi : getItem st.table s "_METADATA" =
      (query st.table s).find? (fun it => itemSK it = "_METADATA") := by
    rw [query, find?_filter]
    rfl
  have hsorted : (query st.table s).Pairwise (fun a b => keyLt a b = true) :=
    List.Pairwise.filter _ hInv.sorted
  have hsh : ∀ y ∈ query st.table s, ItemShape st.nextId y ∧ itemPK y = s := by
    intro y hy
    exact ⟨hInv.shape y (List.mem_of_mem_filter hy), by simpa using List.of_mem_filter hy⟩
  obtain ⟨evs, hevs, hdisj⟩ := query_decomp_aux st.nextId s (query st.table s) hsorted hsh
  exact ⟨evs, hevs, by rwa [hgi]⟩

/-! ## The read path -/

theorem readLoop_eventItems (s : String) :
    ∀ (evs : List Item), (∀ y ∈ evs, ∃ e j, y = eventItem s e (idString j)) →
      ∀ (tail : List Item) (ver : Option Int) (acc : List Event),
      readLoop (evs ++ tail) ver acc = readLoop tail ver (acc ++ decodedEvents evs)
  | [], _ => by simp [decodedEvents]
  | y :: evs', h => by
    intro tail ver acc
    obtain ⟨e, j, rfl⟩ := h y (List.mem_cons_self y evs')
    rw [List.cons_append, readLoop, if_neg (by rw [hasAttr_eventItem]; exact Bool.false_ne_true),
      decodeEvent_eventItem]
    show readLoop (evs' ++ tail) ver (acc ++ [e]) = _
    rw [readLoop_eventItems s evs' (fun z hz => h z (List.mem_cons_of_mem _ hz)) tail ver
      (acc ++ [e]), decodedEvents_eventItem_cons, List.append_assoc]
    rfl

theorem readLoop_metaItem (s : String) (v : Nat) (ver : Option Int) (acc : List Event) :
    readLoop [metaItem s (v : Int)] ver acc = .ok (some (v : Int), acc) := by
  rw [readLoop, if_pos (hasAttr_metaItem s _), versionN_metaItem,
    jsParseInt_intToN _ (by omega)]
  rfl

/-- `read` on any reachable state succeeds and returns the stream name,
the stored version (0 for a stream never written to), and the decoded
event records in ascending sort-key order. -/
theorem read_spec {st : EventStore} (hInv : StoreInv st) (s : String) :
    st.read s = .ok ⟨s, some (versionOf st s), eventsOf st s⟩ := by
  obtain ⟨evs, hevs, hdisj⟩ := query_decomp hInv s
  rcases hdisj with ⟨hq, hgi⟩ | ⟨v, hv, hq, hgi⟩
  · rw [EventStore.read, hq, show (evs : List Item) = evs ++ [] from (List.append_nil _).symm,
      readLoop_eventItems s evs (fun y hy => by
        obtain ⟨e, j, _, hy'⟩ := hevs y hy
        exact ⟨e, j, hy'⟩)]
    rw [show readLoop [] (some 0) ([] ++ decodedEvents evs) =
      .ok (some 0, decodedEvents evs) from by rw [List.nil_append]; rfl]
    rw [versionOf, hgi, eventsOf_eq, hq]
  · rw [EventStore.read, hq,
      readLoop_eventItems s evs (fun y hy => by
        obtain ⟨e, j, _, hy'⟩ := hevs y hy
        exact ⟨e, j, hy'⟩),
      List.nil_append, readLoop_metaItem s v]
    rw [versionOf, hgi, eventsOf_eq, hq, decodedEvents_append]
    show (Except.ok ⟨s, some (v : Int), decodedEvents evs⟩ : Except JsError EventStream) =
      .ok ⟨s, some ((dynParseInt (intToN (v : Int))).getD 0),
        decodedEvents evs ++ decodedEvents [metaItem s (v : Int)]⟩
    rw [dynParseInt_intToN, show decodedEvents [metaItem s (v : Int)] = [] from rfl,
      List.append_nil]
    rfl

/-! ## The write path -/

theorem metadataUpdate_pk (tbl s : String) (exp : Int) : (metadataUpdate tbl s exp).pk = s := by
  rw [metadataUpdate]
  split_ifs <;> rfl

theorem metadataUpdate_sk (tbl s : String) (exp : Int) :
    (metadataUpdate tbl s exp).sk = "_METADATA" := by
  rw [metadataUpdate]
  split_ifs <;> rfl

theorem metadataUpdate_increment (tbl s : String) (exp : Int) :
    (metadataUpdate tbl s exp).increment = 1 := by
  rw [metadataUpdate]
  split_ifs <;> rfl

/-- The condition `metadataUpdate` attaches, as a function of
`expectedVersion`: `attribute_not_exists` exactly at `Version.None`,
`#version = :expected` exactly above `-1`, nothing otherwise. -/
theorem metadataUpdate_condition (tbl s : String) (exp : Int) :
    (metadataUpdate tbl s exp).condition =
      if exp = Version.None then some .attrNotExists
      else if exp > -1 then some (.versionEq exp) else none := by
  rw [metadataUpdate]
  by_cases h1 : exp = Version.None
  · rw [if_pos h1, if_pos h1, if_neg (by rw [h1]; decide)]
  · rw [if_neg h1, if_neg h1]
    by_cases h2 : exp > -1
    · rw [if_pos h2, if_pos h2]
    · rw [if_neg h2, if_neg h2]

/-- Whether the condition `write` attaches for this `expectedVersion`
holds in the current state. -/
def condOk (st : EventStore) (s : String) (exp : Int) : Bool :=
  match (metadataUpdate st.tableName s exp).condition with
  | none => true
  | some c => evalCond st.table s "_METADATA" c

theorem setAttr_metaItem (s : String) (v w : Int) :
    setAttr (metaItem s v) "VERSION" (.N (intToN w)) = metaItem s w := rfl

theorem applyUpdate_spec {st : EventStore} (hInv : StoreInv st) (tbl s : String) (exp : Int) :
    applyUpdate st.table (metadataUpdate tbl s exp) =
      .ok (putItem st.table (metaItem s (versionOf st s + 1))) := by
  rw [applyUpdate, metadataUpdate_pk, metadataUpdate_sk, metadataUpdate_increment]
  cases hgi : getItem st.table s "_METADATA" with
  | none =>
    rw [versionOf, hgi]
    rfl
  | some it =>
    obtain ⟨v, hv, rfl⟩ := getItem_meta_of_inv hInv hgi
    have hver : versionOf st s = (v : Int) := by
      rw [versionOf, hgi]
      show (dynParseInt (intToN (v : Int))).getD 0 = (v : Int)
      rw [dynParseInt_intToN]
      rfl
    show (match dynParseInt (intToN (v : Int)) with
      | some val =>
        Except.ok (putItem st.table (setAttr (metaItem s (v : Int)) "VERSION"
          (AttrValue.N (intToN (val + 1)))))
      | none => (Except.error DynError.validationError : Except DynError Table)) =
      Except.ok (putItem st.table (metaItem s (versionOf st s + 1)))
    rw [dynParseInt_intToN, hver]
    show Except.ok (putItem st.table (setAttr (metaItem s (v : Int)) "VERSION"
      (AttrValue.N (intToN ((v : Int) + 1))))) = _
    rw [setAttr_metaItem]

/-- Complete description of `write` on an invariant state: the
transaction succeeds exactly when the attached condition holds in the
pre-state, in which case the version record is bumped by one and the
event record inserted, both in one step; otherwise it fails with the
conditional-check cancellation and no successor state exists. -/
theorem write_eq {st : EventStore} (hInv : StoreInv st) (s : String) (e : Event) (exp : Int) :
    st.write s e exp =
      if condOk st s exp then
        .ok { tableName := st.tableName,
              table := putItem (putItem st.table (metaItem s (versionOf st s + 1)))
                (eventItem s e (idString st.nextId)),
              nextId := st.nextId + 1 }
      else .error .conditionalCheckFailed := by
  rw [EventStore.write, transactWrite, metadataUpdate_pk, metadataUpdate_sk]
  rw [show (match (metadataUpdate st.tableName s exp).condition with
      | none => true
      | some c => evalCond st.table s "_METADATA" c) = condOk st s exp from rfl]
  by_cases h : condOk st s exp = true
  · rw [if_pos h, if_pos h, applyUpdate_spec hInv, eventInsert_item]
  · rw [if_neg h, if_neg h]

/-! ## Condition outcomes -/

theorem condOk_unconditional {st : EventStore} {s : String} {exp : Int}
    (h1 : exp < 0) (h2 : exp ≠ Version.None) : condOk st s exp = true := by
  rw [condOk, metadataUpdate_condition, if_neg h2, if_neg (by omega)]

theorem condOk_none_iff {st : EventStore} {s : String} :
    condOk st s Version.None = true ↔ getItem st.table s "_METADATA" = none := by
  rw [condOk, metadataUpdate_condition, if_pos rfl]
  show (getItem st.table s "_METADATA").isNone = true ↔ _
  rw [Option.isNone_iff_eq_none]

theorem condOk_expected_iff {st : EventStore} {s : String} {exp : Int} (hInv : StoreInv st)
    (hN : -1 < exp) :
    condOk st s exp = true ↔ (hasStream st s = true ∧ versionOf st s = exp) := by
  rw [condOk, metadataUpdate_condition,
    if_neg (fun h => absurd hN (by rw [h]; decide)), if_pos hN]
  show evalCond st.table s "_METADATA" (.versionEq exp) = true ↔ _
  rw [evalCond]
  cases hgi : getItem st.table s "_METADATA" with
  | none =>
    simp [hasStream, hgi]
  | some it =>
    obtain ⟨v, hv, rfl⟩ := getItem_meta_of_inv hInv hgi
    have hver : versionOf st s = (v : Int) := by
      rw [versionOf, hgi]
      show (dynParseInt (intToN (v : Int))).getD 0 = (v : Int)
      rw [dynParseInt_intToN]
      rfl
    show (match dynParseInt (intToN (v : Int)) with
      | some val => val == exp
      | none => false) = true ↔ _
    rw [dynParseInt_intToN]
    simp [hasStream, hgi, hver]

/-! ## Invariant preservation and the effect of a successful write -/

theorem itemShape_mono {n m : Nat} (h : n ≤ m) {it : Item} :
    ItemShape n it → ItemShape m it := by
  intro hs
  cases hs with
  | meta s v hv => exact .meta s v hv
  | event s e j hj => exact .event s e j (by omega)

theorem pairwise_putItem {t : Table} (ht : t.Pairwise (fun a b => keyLt a b = true)) (x : Item) :
    (putItem t x).Pairwise (fun a b => keyLt a b = true) := by
  rw [putItem]
  refine pairwise_insertItem (List.Pairwise.filter _ ht) ?_
  intro y hy
  have hkept := List.of_mem_filter hy
  simp only [Bool.not_eq_true', Bool.and_eq_false_iff, decide_eq_false_iff_not] at hkept
  refine keyLt_total ?_
  intro ⟨h1, h2⟩
  rcases hkept with h | h
  · exact h h1.symm
  · exact h h2.symm

theorem mem_putItem {t : Table} {x y : Item} (h : y ∈ putItem t x) : y = x ∨ y ∈ t := by
  rw [putItem] at h
  rcases mem_insertItem.mp h with rfl | h
  · exact Or.inl rfl
  · exact Or.inr (List.mem_of_mem_filter h)

theorem versionOf_nat {st : EventStore} (hInv : StoreInv st) (s : String) :
    ∃ w : Nat, versionOf st s = (w : Int) ∧ (hasStream st s = true → 1 ≤ w) := by
  cases hgi : getItem st.table s "_METADATA" with
  | none =>
    refine ⟨0, by rw [versionOf, hgi]; rfl, ?_⟩
    intro h
    rw [hasStream, hgi] at h
    exact absurd h (by simp)
  | some it =>
    obtain ⟨v, hv, rfl⟩ := getItem_meta_of_inv hInv hgi
    refine ⟨v, ?_, fun _ => hv⟩
    rw [versionOf, hgi]
    show (dynParseInt (intToN (v : Int))).getD 0 = (v : Int)
    rw [dynParseInt_intToN]
    rfl

theorem storeInv_write {st st' : EventStore} {s : String} {e : Event} {exp : Int}
    (hInv : StoreInv st) (h : st.write s e exp = .ok st') : StoreInv st' := by
  rw [write_eq hInv] at h
  by_cases hc : condOk st s exp = true
  · rw [if_pos hc] at h
    injection h with h
    subst h
    obtain ⟨w, hw, -⟩ := versionOf_nat hInv s
    constructor
    · exact pairwise_putItem (pairwise_putItem hInv.sorted _) _
    · intro it hit
      have hit2 : it ∈ putItem (putItem st.table (metaItem s (versionOf st s + 1)))
          (eventItem s e (idString st.nextId)) := hit
      show ItemShape (st.nextId + 1) it
      rcases mem_putItem hit2 with rfl | hit3
      · exact .event s e st.nextId (by omega)
      rcases mem_putItem hit3 with rfl | hit4
      · rw [show versionOf st s + 1 = ((w + 1 : Nat) : Int) by rw [hw]; push_cast; ring]
        exact .meta s (w + 1) (by omega)
      · exact itemShape_mono (by omega) (hInv.shape it hit4)
  · rw [if_neg hc] at h
    exact Except.noConfusion h

theorem getItem_write_meta {st st' : EventStore} {s : String} {e : Event} {exp : Int}
    (hInv : StoreInv st) (h : st.write s e exp = .ok st') :
    getItem st'.table s "_METADATA" = some (metaItem s (versionOf st s + 1)) := by
  rw [write_eq hInv] at h
  by_cases hc : condOk st s exp = true
  · rw [if_pos hc] at h
    injection h with h
    subst h
    show getItem (putItem (putItem st.table (metaItem s (versionOf st s + 1)))
      (eventItem s e (idString st.nextId))) s "_METADATA" = _
    rw [getItem_putItem_ne _ _ (by
      rw [itemPK_eventItem, itemSK_eventItem]
      rintro ⟨-, h2⟩
      exact event_sk_ne_meta _ h2)]
    have := getItem_putItem_self st.table (metaItem s (versionOf st s + 1))
    rwa [itemPK_metaItem, itemSK_metaItem] at this
  · rw [if_neg hc] at h
    exact Except.noConfusion h

theorem versionOf_write {st st' : EventStore} {s : String} {e : Event} {exp : Int}
    (hInv : StoreInv st) (h : st.write s e exp = .ok st') :
    versionOf st' s = versionOf st s + 1 := by
  rw [versionOf, getItem_write_meta hInv h]
  show (dynParseInt (intToN (versionOf st s + 1))).getD 0 = versionOf st s + 1
  rw [dynParseInt_intToN]
  rfl

theorem hasStream_write_self {st st' : EventStore} {s : String} {e : Event} {exp : Int}
    (hInv : StoreInv st) (h : st.write s e exp = .ok st') : hasStream st' s = true := by
  rw [hasStream, getItem_write_meta hInv h]
  rfl

theorem getItem_write_other {st st' : EventStore} {s : String} {e : Event} {exp : Int}
    (hInv : StoreInv st) (h : st.write s e exp = .ok st') {s2 : String} (hne : s2 ≠ s)
    (sk : String) : getItem st'.table s2 sk = getItem st.table s2 sk := by
  rw [write_eq hInv] at h
  by_cases hc : condOk st s exp = true
  · rw [if_pos hc] at h
    injection h with h
    subst h
    show getItem (putItem (putItem st.table (metaItem s (versionOf st s + 1)))
      (eventItem s e (idString st.nextId))) s2 sk = _
    rw [getItem_putItem_ne _ _ (by
        rw [itemPK_eventItem]
        rintro ⟨h1, -⟩
        exact hne h1.symm),
      getItem_putItem_ne _ _ (by
        rw [itemPK_metaItem]
        rintro ⟨h1, -⟩
        exact hne h1.symm)]
  · rw [if_neg hc] at h
    exact Except.noConfusion h

/-! ## Effect of a successful write on the stream's partition -/

theorem keyLt_meta_event (s : String) (v : Int) (e : Event) (id : String) :
    keyLt (metaItem s v) (eventItem s e id) = false := by
  rw [keyLt, itemPK_metaItem, itemPK_eventItem, itemSK_metaItem, itemSK_eventItem,
    strLt_irrefl, strLt_asymm (strLt_event_meta id)]
  simp

theorem keyLt_meta_meta (s : String) (v w : Int) :
    keyLt (metaItem s v) (metaItem s w) = false := by
  rw [keyLt, itemPK_metaItem, itemPK_metaItem, itemSK_metaItem, itemSK_metaItem, strLt_irrefl,
    strLt_irrefl]
  simp

theorem keyLt_event_event_false (s : String) (e1 e2 : Event) {j1 j2 : Nat} (h : j2 ≤ j1) :
    keyLt (eventItem s e1 (idString j1)) (eventItem s e2 (idString j2)) = false := by
  rw [keyLt, itemPK_eventItem, itemPK_eventItem, itemSK_eventItem, itemSK_eventItem,
    strLt_irrefl]
  rcases Nat.eq_or_lt_of_le h with rfl | hlt
  · rw [show strLt ("EVENT-" ++ idString j2) ("EVENT-" ++ idString j2) = false from
      strLt_irrefl _]
    simp
  · rw [strLt_asymm (strLt_event_event (idString_lt hlt))]
    simp

theorem eraseKey_no_match {pk sk : String} {l : Table}
    (h : ∀ y ∈ l, ¬(itemPK y = pk ∧ itemSK y = sk)) : eraseKey pk sk l = l := by
  rw [eraseKey]
  apply List.filter_eq_self.mpr
  intro y hy
  simp only [Bool.not_eq_true', Bool.and_eq_false_iff, decide_eq_false_iff_not]
  have := h y hy
  tauto

theorem query_eraseKey_comm (pk sk s : String) (t : Table) :
    query (eraseKey pk sk t) s = eraseKey pk sk (query t s) := by
  rw [query, eraseKey, List.filter_filter, query, eraseKey, List.filter_filter]
  apply List.filter_congr
  intro y _
  rw [Bool.and_comm]

theorem query_putItem_pos {t : Table} (ht : t.Pairwise (fun a b => keyLt a b = true))
    {x : Item} {s : String} (hx : itemPK x = s) :
    query (putItem t x) s = insertItem x (eraseKey (itemPK x) (itemSK x) (query t s)) := by
  have hp : (eraseKey (itemPK x) (itemSK x) t).Pairwise (fun a b => keyLt a b = true) :=
    List.Pairwise.filter _ ht
  rw [putItem, query, filter_insertItem_of_pos (by simp [hx]) _ hp]
  rw [show List.filter (fun it => itemPK it = s) (eraseKey (itemPK x) (itemSK x) t) =
    query (eraseKey (itemPK x) (itemSK x) t) s from rfl, query_eraseKey_comm]

theorem query_putItem_neg {t : Table} {x : Item} {s : String} (hx : itemPK x ≠ s) :
    query (putItem t x) s = query t s := by
  rw [putItem, query, filter_insertItem_of_neg (by simp [hx])]
  rw [show List.filter (fun it => itemPK it = s) (eraseKey (itemPK x) (itemSK x) t) =
    query (eraseKey (itemPK x) (itemSK x) t) s from rfl, query_eraseKey_comm,
    eraseKey_no_match]
  intro y hy
  rintro ⟨h1, -⟩
  have := List.of_mem_filter hy
  simp only [decide_eq_true_eq] at this
  exact hx (h1.symm.trans this)

theorem ne_of_strLt {a b : String} (h : strLt a b = true) : a ≠ b := by
  intro he
  rw [he, strLt_irrefl] at h
  exact Bool.noConfusion h

theorem query_write_other {st st' : EventStore} {s : String} {e : Event} {exp : Int}
    (hInv : StoreInv st) (h : st.write s e exp = .ok st') {s2 : String} (hne : s2 ≠ s) :
    query st'.table s2 = query st.table s2 := by
  rw [write_eq hInv] at h
  by_cases hc : condOk st s exp = true
  · rw [if_pos hc] at h
    injection h with h
    subst h
    show query (putItem (putItem st.table (metaItem s (versionOf st s + 1)))
      (eventItem s e (idString st.nextId))) s2 = _
    rw [query_putItem_neg (by rw [itemPK_eventItem]; exact fun hh => hne hh.symm),
      query_putItem_neg (by rw [itemPK_metaItem]; exact fun hh => hne hh.symm)]
  · rw [if_neg hc] at h
    exact Except.noConfusion h

/-- Effect of a successful write on its stream's partition: the old
event records keep their places, the new event record is inserted after
them, and the version record follows with the bumped counter. -/
theorem query_write_self {st st' : EventStore} {s : String} {e : Event} {exp : Int}
    (hInv : StoreInv st) (h : st.write s e exp = .ok st') :
    query st'.table s = (query st.table s).filter (fun it => !hasAttr it "VERSION") ++
      [eventItem s e (idString st.nextId), metaItem s (versionOf st s + 1)] := by
  rw [write_eq hInv] at h
  by_cases hc : condOk st s exp = true
  case neg =>
    rw [if_neg hc] at h
    exact Except.noConfusion h
  rw [if_pos hc] at h
  injection h with h
  subst h
  obtain ⟨evs, hevs, hdisj⟩ := query_decomp hInv s
  have hevfalse : ∀ y ∈ evs, hasAttr y "VERSION" = false := by
    intro y hy
    obtain ⟨e', j, -, rfl⟩ := hevs y hy
    exact hasAttr_eventItem _ _ _
  have hq1 : query (putItem st.table (metaItem s (versionOf st s + 1))) s =
      evs ++ [metaItem s (versionOf st s + 1)] := by
    have := query_putItem_pos hInv.sorted
      (x := metaItem s (versionOf st s + 1)) (s := s) (itemPK_metaItem _ _)
    rw [this, itemPK_metaItem, itemSK_metaItem]
    have herase : eraseKey s "_METADATA" (query st.table s) = evs := by
      rcases hdisj with ⟨hq, -⟩ | ⟨v, -, hq, -⟩
      · rw [hq]
        apply eraseKey_no_match
        intro y hy
        obtain ⟨e', j, -, rfl⟩ := hevs y hy
        rw [itemSK_eventItem]
        rintro ⟨-, h2⟩
        exact event_sk_ne_meta _ h2
      · rw [hq, eraseKey, List.filter_append]
        rw [show List.filter _ [metaItem s (v : Int)] = ([] : Table) from by
          simp [itemPK_metaItem, itemSK_metaItem]]
        rw [List.append_nil, ← eraseKey, eraseKey_no_match]
        intro y hy
        obtain ⟨e', j, -, rfl⟩ := hevs y hy
        rw [itemSK_eventItem]
        rintro ⟨-, h2⟩
        exact event_sk_ne_meta _ h2
    rw [herase]
    apply insertItem_append_last
    intro y hy
    obtain ⟨e', j, -, rfl⟩ := hevs y hy
    exact keyLt_meta_event s _ e' _
  have hq2 : query (putItem (putItem st.table (metaItem s (versionOf st s + 1)))
      (eventItem s e (idString st.nextId))) s =
      evs ++ [eventItem s e (idString st.nextId), metaItem s (versionOf st s + 1)] := by
    have hsorted1 := pairwise_putItem hInv.sorted (metaItem s (versionOf st s + 1))
    have := query_putItem_pos hsorted1
      (x := eventItem s e (idString st.nextId)) (s := s) (itemPK_eventItem _ _ _)
    rw [this, itemPK_eventItem, itemSK_eventItem, hq1]
    have herase : eraseKey s ("EVENT-" ++ idString st.nextId)
        (evs ++ [metaItem s (versionOf st s + 1)]) =
        evs ++ [metaItem s (versionOf st s + 1)] := by
      apply eraseKey_no_match
      intro y hy
      rcases List.mem_append.mp hy with hy | hy
      · obtain ⟨e', j, hj, rfl⟩ := hevs y hy
        rw [itemSK_eventItem]
        rintro ⟨-, h2⟩
        exact ne_of_strLt (strLt_event_event (idString_lt hj)) h2
      · rw [List.mem_singleton.mp hy, itemSK_metaItem]
        rintro ⟨-, h2⟩
        exact event_sk_ne_meta _ h2.symm
    rw [herase]
    apply insertItem_before_last (keyLt_event_meta s e _ _)
    intro y hy
    obtain ⟨e', j, hj, rfl⟩ := hevs y hy
    exact keyLt_event_event_false s e e' (by omega)
  rw [hq2]
  congr 1
  rcases hdisj with ⟨hq, -⟩ | ⟨v, -, hq, -⟩
  · rw [hq, List.filter_eq_self.mpr]
    intro y hy
    simp [hevfalse y hy]
  · rw [hq, List.filter_append]
    rw [show List.filter _ [metaItem s (v : Int)] = ([] : Table) from by
      simp [hasAttr_metaItem]]
    rw [List.append_nil, List.filter_eq_self.mpr]
    intro y hy
    simp [hevfalse y hy]

theorem decodedEvents_cons_version {it : Item} (hv : hasAttr it "VERSION" = true)
    (rest : List Item) : decodedEvents (it :: rest) = decodedEvents rest := by
  rw [decodedEvents, List.filterMap_cons, if_pos hv]
  rfl

theorem decodedEvents_cons_noversion {it : Item} (hv : ¬ hasAttr it "VERSION" = true)
    (rest : List Item) : decodedEvents (it :: rest) =
      match (decodeEvent it).toOption with
      | none => decodedEvents rest
      | some b => b :: decodedEvents rest := by
  show List.filterMap _ (it :: rest) = _
  rw [List.filterMap_cons, if_neg hv]
  cases (decodeEvent it).toOption <;> rfl

theorem decodedEvents_filter_version (Q : List Item) :
    decodedEvents (Q.filter (fun it => !hasAttr it "VERSION")) = decodedEvents Q := by
  induction Q with
  | nil => rfl
  | cons it rest ih =>
    rw [List.filter_cons]
    by_cases hv : hasAttr it "VERSION" = true
    · rw [if_neg (by simp [hv]), ih, decodedEvents_cons_version hv]
    · have hv' : (!hasAttr it "VERSION") = true := by simp at hv ⊢; exact hv
      rw [if_pos hv', decodedEvents_cons_noversion hv, decodedEvents_cons_noversion hv]
      cases hd : (decodeEvent it).toOption with
      | none => exact ih
      | some ev => exact congrArg (fun l => ev :: l) ih

theorem eventsOf_write {st st' : EventStore} {s : String} {e : Event} {exp : Int}
    (hInv : StoreInv st) (h : st.write s e exp = .ok st') :
    eventsOf st' s = eventsOf st s ++ [e] := by
  rw [eventsOf_eq, query_write_self hInv h, decodedEvents_append, decodedEvents_filter_version,
    decodedEvents_eventItem_cons, decodedEvents_metaItem, decodedEvents_nil, eventsOf_eq]

/-! ## Success criterion and error shape of `write` -/

theorem write_isOk_iff {st : EventStore} (hInv : StoreInv st) (s : String) (e : Event)
    (exp : Int) : (∃ st', st.write s e exp = .ok st') ↔ condOk st s exp = true := by
  rw [write_eq hInv]
  by_cases hc : condOk st s exp = true
  · rw [if_pos hc]
    exact ⟨fun _ => hc, fun _ => ⟨_, rfl⟩⟩
  · rw [if_neg hc]
    exact ⟨fun ⟨st', hst'⟩ => Except.noConfusion hst', fun h => absurd h hc⟩

theorem write_error_shape {st : EventStore} {s : String} {e : Event} {exp : Int} {err : DynError}
    (hInv : StoreInv st) (h : st.write s e exp = .error err) :
    err = .conditionalCheckFailed ∧ condOk st s exp = false := by
  rw [write_eq hInv] at h
  by_cases hc : condOk st s exp = true
  · rw [if_pos hc] at h
    exact Except.noConfusion h
  · rw [if_neg hc] at h
    injection h with h
    exact ⟨h.symm, by simpa using hc⟩

theorem hasStream_write {st st' : EventStore} {s : String} {e : Event} {exp : Int}
    (hInv : StoreInv st) (h : st.write s e exp = .ok st') (s0 : String) :
    hasStream st' s0 = (hasStream st s0 || s = s0) := by
  by_cases hs0 : s0 = s
  · subst hs0
    rw [hasStream_write_self hInv h]
    simp
  · rw [hasStream, getItem_write_other hInv h hs0, ← hasStream,
      decide_eq_false (fun hh => hs0 hh.symm)]
    simp

theorem nextId_write {st st' : EventStore} {s : String} {e : Event} {exp : Int}
    (hInv : StoreInv st) (h : st.write s e exp = .ok st') : st'.nextId = st.nextId + 1 := by
  rw [write_eq hInv] at h
  by_cases hc : condOk st s exp = true
  · rw [if_pos hc] at h
    injection h with h
    rw [← h]
  · rw [if_neg hc] at h
    exact Except.noConfusion h

theorem tableName_write {st st' : EventStore} {s : String} {e : Event} {exp : Int}
    (hInv : StoreInv st) (h : st.write s e exp = .ok st') : st'.tableName = st.tableName := by
  rw [write_eq hInv] at h
  by_cases hc : condOk st s exp = true
  · rw [if_pos hc] at h
    injection h with h
    rw [← h]
  · rw [if_neg hc] at h
    exact Except.noConfusion h

/-! ## Traces of API calls -/

/-- One public API call that mutates state. -/
inductive Op where
  | write (stream : String) (event : Event) (expectedVersion : Int)

/-- Run a sequence of write calls; a failed call leaves the state as it
was (the caller keeps its store handle and moves on). -/
def runOps (st : EventStore) : List Op → EventStore
  | [] => st
  | .write s e x :: ops =>
    match st.write s e x with
    | .ok st' => runOps st' ops
    | .error _ => runOps st ops

/-- Whether some write to stream `s0` in the trace was accepted. -/
def succeededFor (st : EventStore) (ops : List Op) (s0 : String) : Bool :=
  match ops with
  | [] => false
  | .write s e x :: rest =>
    match st.write s e x with
    | .ok st' => s = s0 || succeededFor st' rest s0
    | .error _ => succeededFor st rest s0

theorem storeInv_runOps {st : EventStore} (hInv : StoreInv st) (ops : List Op) :
    StoreInv (runOps st ops) := by
  induction ops generalizing st with
  | nil => exact hInv
  | cons op rest ih =>
    obtain ⟨s, e, x⟩ := op
    rw [runOps]
    cases hw : st.write s e x with
    | ok st' => exact ih (storeInv_write hInv hw)
    | error err => exact ih hInv

theorem hasStream_runOps {st : EventStore} (hInv : StoreInv st) (ops : List Op) (s0 : String) :
    hasStream (runOps st ops) s0 = (hasStream st s0 || succeededFor st ops s0) := by
  induction ops generalizing st with
  | nil =>
    rw [runOps, succeededFor]
    simp
  | cons op rest ih =>
    obtain ⟨s, e, x⟩ := op
    rw [runOps, succeededFor]
    cases hw : st.write s e x with
    | ok st' =>
      rw [ih (storeInv_write hInv hw), hasStream_write hInv hw]
      simp [Bool.or_assoc]
    | error err => exact ih hInv

/-! ## Iterated writes with the default expectation -/

/-- `write` each event in order with the default `expectedVersion`
(`Version.Any`), stopping at the first failure. -/
def writeMany (st : EventStore) (s : String) : List Event → Except DynError EventStore
  | [] => .ok st
  | e :: es =>
    match st.write s e with
    | .ok st' => writeMany st' s es
    | .error err => .error err

theorem any_write_ok {st : EventStore} (hInv : StoreInv st) (s : String) (e : Event) :
    ∃ st', st.write s e Version.Any = .ok st' :=
  (write_isOk_iff hInv s e Version.Any).mpr (condOk_unconditional (by decide) (by decide))

theorem writeMany_spec {s : String} :
    ∀ (evs : List Event) (st : EventStore), StoreInv st →
      ∃ st', writeMany st s evs = .ok st' ∧ StoreInv st' ∧
        versionOf st' s = versionOf st s + evs.length ∧
        eventsOf st' s = eventsOf st s ++ evs
  | [], st, hInv => ⟨st, rfl, hInv, by simp, by simp⟩
  | e :: es, st, hInv => by
    obtain ⟨st1, hok⟩ := any_write_ok hInv s e
    have hInv1 := storeInv_write hInv hok
    obtain ⟨st2, hrun, hInv2, hver, hevs⟩ := writeMany_spec es st1 hInv1
    refine ⟨st2, ?_, hInv2, ?_, ?_⟩
    · rw [writeMany, show st.write s e = st.write s e Version.Any from rfl, hok]
      exact hrun
    · rw [hver, versionOf_write hInv hok, List.length_cons]
      push_cast
      ring
    · rw [hevs, eventsOf_write hInv hok, List.append_assoc]
      rfl

/-! ## General characterizations of the read loop -/

/-- Written from the spec's words for the partition rule (§4.3 as
amended): the snapshot version is the value read from the last record
carrying a `VERSION` attribute, in ascending sort-key order, starting
from 0 before any such record. -/
def specVersionFrom (items : List Item) (ver : Option Int) : Option Int :=
  items.foldl (fun acc it => if hasAttr it "VERSION" then jsParseInt (versionN it) else acc) ver

theorem specVersionFrom_cons (it : Item) (rest : List Item) (ver : Option Int) :
    specVersionFrom (it :: rest) ver =
      specVersionFrom rest (if hasAttr it "VERSION" then jsParseInt (versionN it) else ver) := by
  rw [specVersionFrom, specVersionFrom, List.foldl_cons]

theorem readLoop_spec : ∀ (items : List Item) (ver : Option Int) (acc : List Event),
    (∀ it ∈ items, hasAttr it "VERSION" = false → ∃ ev, decodeEvent it = .ok ev) →
    readLoop items ver acc = .ok (specVersionFrom items ver, acc ++ decodedEvents items)
  | [], ver, acc, _ => by
    rw [readLoop, specVersionFrom, List.foldl_nil, decodedEvents_nil, List.append_nil]
  | it :: rest, ver, acc, h => by
    rw [specVersionFrom_cons]
    by_cases hv : hasAttr it "VERSION" = true
    · rw [readLoop, if_pos hv,
        readLoop_spec rest _ acc (fun y hy => h y (List.mem_cons_of_mem _ hy)),
        decodedEvents_cons_version hv, if_pos hv]
    · obtain ⟨ev, hev⟩ := h it (List.mem_cons_self it rest) (by simpa using hv)
      rw [readLoop, if_neg hv, hev]
      show readLoop rest ver (acc ++ [ev]) = _
      rw [readLoop_spec rest ver (acc ++ [ev]) (fun y hy => h y (List.mem_cons_of_mem _ hy)),
        decodedEvents_cons_noversion hv, hev, if_neg hv]
      show Except.ok (specVersionFrom rest ver, (acc ++ [ev]) ++ decodedEvents rest) =
        .ok (specVersionFrom rest ver, acc ++ (ev :: decodedEvents rest))
      rw [List.append_assoc]
      rfl

theorem readLoop_error_of_bad : ∀ (items : List Item) (ver : Option Int) (acc : List Event),
    (∃ it ∈ items, hasAttr it "VERSION" = false ∧ ∃ err, decodeEvent it = .error err) →
    ∃ err, readLoop items ver acc = .error err
  | [], _, _, h => by
    obtain ⟨it, hmem, -⟩ := h
    exact absurd hmem (List.not_mem_nil it)
  | it :: rest, ver, acc, h => by
    by_cases hv : hasAttr it "VERSION" = true
    · rw [readLoop, if_pos hv]
      apply readLoop_error_of_bad rest _ acc
      obtain ⟨y, hy, hyv, herr⟩ := h
      rcases List.mem_cons.mp hy with rfl | hy
      · rw [hv] at hyv
        exact Bool.noConfusion hyv
      · exact ⟨y, hy, hyv, herr⟩
    · rw [readLoop, if_neg hv]
      cases hd : decodeEvent it with
      | error err => exact ⟨err, rfl⟩
      | ok ev =>
        apply readLoop_error_of_bad rest ver (acc ++ [ev])
        obtain ⟨y, hy, hyv, err, herr⟩ := h
        rcases List.mem_cons.mp hy with rfl | hy
        · rw [hd] at herr
          exact Except.noConfusion herr
        · exact ⟨y, hy, hyv, err, herr⟩

theorem getItem_eq_none_of_query_nil {t : Table} {s : String} (h : query t s = [])
    (sk : String) : getItem t s sk = none := by
  cases hgi : getItem t s sk with
  | none => rfl
  | some it =>
    exfalso
    have hmem : it ∈ t := List.mem_of_find?_eq_some hgi
    have hpred := List.find?_some hgi
    simp only [Bool.and_eq_true, decide_eq_true_eq] at hpred
    have : it ∈ query t s := List.mem_filter.mpr ⟨hmem, by simp [hpred.1]⟩
    rw [h] at this
    exact absurd this (List.not_mem_nil it)

/-! ## The claims -/

/-- C1: for every invariant state in which the stream has no records
(fresh, never written), any sequence of N writes with the default
`expectedVersion = Version.Any` succeeds in order, and a subsequent
`read` returns `version = N` and exactly the N written events in write
order. -/
theorem c1_any_writes_then_read (st : EventStore) (s : String) (evs : List Event)
    (hInv : StoreInv st) (hfresh : query st.table s = []) :
    ∃ st', writeMany st s evs = .ok st' ∧
      st'.read s = .ok ⟨s, some (evs.length : Int), evs⟩ := by
  have hver0 : versionOf st s = 0 := by
    rw [versionOf, getItem_eq_none_of_query_nil hfresh]
  have hevs0 : eventsOf st s = [] := by
    rw [eventsOf_eq, hfresh]
    rfl
  obtain ⟨st', hok, hInv', hver, hevs⟩ := writeMany_spec evs st hInv
  refine ⟨st', hok, ?_⟩
  rw [read_spec hInv' s, hver, hevs, hver0, hevs0, zero_add, List.nil_append]

theorem c1_witness :
    StoreInv (emptyStore "ponies") ∧ query (emptyStore "ponies").table "pony-1" = [] ∧
    ∃ st', writeMany (emptyStore "ponies") "pony-1"
        [⟨"PonyJumped", .obj [("name", .str "SparkleHooves"), ("distance", .num 5)]⟩,
         ⟨"PonyJumped", .obj [("name", .str "DerpyHooves"), ("distance", .num 5)]⟩] = .ok st' ∧
      st'.read "pony-1" = .ok ⟨"pony-1", some 2,
        [⟨"PonyJumped", .obj [("name", .str "SparkleHooves"), ("distance", .num 5)]⟩,
         ⟨"PonyJumped", .obj [("name", .str "DerpyHooves"), ("distance", .num 5)]⟩]⟩ :=
  ⟨inv_emptyStore "ponies", rfl,
    c1_any_writes_then_read (emptyStore "ponies") "pony-1" _ (inv_emptyStore "ponies") rfl⟩

/-- C2: every write is all-or-nothing.  On an invariant state the call
either returns a successor state in which the version counter moved up
by exactly one and exactly the one event record was appended, or it
returns the conditional-check failure; in the model of the backend's
transaction contract the error branch carries no successor state at
all, so a partially-applied state (counter bumped without the event, or
conversely) is not observable in either branch. -/
theorem c2_write_atomic (st : EventStore) (s : String) (e : Event) (exp : Int)
    (hInv : StoreInv st) :
    (∃ st', st.write s e exp = .ok st' ∧
        versionOf st' s = versionOf st s + 1 ∧
        eventsOf st' s = eventsOf st s ++ [e]) ∨
      (st.write s e exp = .error .conditionalCheckFailed ∧ condOk st s exp = false) := by
  cases hw : st.write s e exp with
  | ok st' => exact Or.inl ⟨st', rfl, versionOf_write hInv hw, eventsOf_write hInv hw⟩
  | error err =>
    obtain ⟨he, hc⟩ := write_error_shape hInv hw
    exact Or.inr ⟨by rw [he], hc⟩

theorem c2_witness :
    StoreInv (emptyStore "t") ∧
    ((∃ st', (emptyStore "t").write "s" ⟨"PonyJumped", .null⟩ 3 = .ok st' ∧
        versionOf st' "s" = versionOf (emptyStore "t") "s" + 1 ∧
        eventsOf st' "s" = eventsOf (emptyStore "t") "s" ++ [⟨"PonyJumped", .null⟩]) ∨
      ((emptyStore "t").write "s" ⟨"PonyJumped", .null⟩ 3 = .error .conditionalCheckFailed ∧
        condOk (emptyStore "t") "s" 3 = false)) :=
  ⟨inv_emptyStore "t", c2_write_atomic (emptyStore "t") "s" ⟨"PonyJumped", .null⟩ 3
    (inv_emptyStore "t")⟩

/-- C3 as stated is false: on a fresh stream (whose current version is
0 by the spec's own convention) a write with `expectedVersion = 0` does
not succeed; the attached condition `#version = :expected` fails on a
nonexistent item, so the transaction is cancelled. -/
theorem c3_counterexample :
    query (emptyStore "t").table "s" = [] ∧
      (emptyStore "t").write "s" ⟨"PonyJumped", .null⟩ 0 =
        .error .conditionalCheckFailed :=
  ⟨rfl, rfl⟩

/-- C3 (amended): for `expectedVersion = N ≥ 0`, a write succeeds iff
the stream's version record exists and its stored counter equals
exactly N; for a never-written stream every such write — including
`N = 0` — fails with the concurrency error. -/
theorem c3_expected_version (st : EventStore) (s : String) (e : Event) (exp : Int)
    (hInv : StoreInv st) (hexp : 0 ≤ exp) :
    (∃ st', st.write s e exp = .ok st') ↔
      (hasStream st s = true ∧ versionOf st s = exp) := by
  rw [write_isOk_iff hInv, condOk_expected_iff hInv (by omega)]

theorem c3_witness :
    (0 : Int) ≤ 0 ∧
      ((∃ st', (emptyStore "t").write "s" ⟨"PonyJumped", .null⟩ 0 = .ok st') ↔
        (hasStream (emptyStore "t") "s" = true ∧ versionOf (emptyStore "t") "s" = 0)) :=
  ⟨by decide, c3_expected_version (emptyStore "t") "s" ⟨"PonyJumped", .null⟩ 0
    (inv_emptyStore "t") (by decide)⟩

/-- C4: starting from an empty table, after any sequence of write calls
whatsoever, a write with `expectedVersion = Version.None` succeeds
exactly when no earlier write to that stream was accepted — i.e. the
`attribute_not_exists` condition accepts only the first accepted write
of a stream, regardless of how the attempts were ordered or which
expectations they carried. -/
theorem c4_none_only_first (tbl : String) (ops : List Op) (s : String) (e : Event) :
    (∃ st', (runOps (emptyStore tbl) ops).write s e Version.None = .ok st') ↔
      succeededFor (emptyStore tbl) ops s = false := by
  have hInv := storeInv_runOps (inv_emptyStore tbl) ops
  rw [write_isOk_iff hInv, condOk_none_iff]
  have hh := hasStream_runOps (inv_emptyStore tbl) ops s
  rw [show hasStream (emptyStore tbl) s = false from rfl, Bool.false_or] at hh
  constructor
  · intro hnone
    rw [← hh, hasStream, hnone]
    rfl
  · intro hsucc
    rw [← hh, hasStream] at hsucc
    cases hgi : getItem (runOps (emptyStore tbl) ops).table s "_METADATA" with
    | none => rfl
    | some it =>
      rw [hgi] at hsucc
      exact Bool.noConfusion hsucc

/-- C5: a stream that has no records reads back as
`{name, version := 0, events := []}`; a never-written stream and an
empty table are indistinguishable through `read`. -/
theorem c5_read_fresh (st : EventStore) (s : String) (h : query st.table s = []) :
    st.read s = .ok ⟨s, some 0, []⟩ := by
  rw [EventStore.read, h]
  rfl

theorem c5_witness :
    query (emptyStore "t").table "no-such-stream" = [] ∧
      (emptyStore "t").read "no-such-stream" = .ok ⟨"no-such-stream", some 0, []⟩ :=
  ⟨rfl, c5_read_fresh (emptyStore "t") "no-such-stream" rfl⟩

/-- C6: round-trip.  Whenever a write of an event is accepted, reading
the stream back succeeds and its last event — the one just written — is
structurally equal to the original: same `type` string, and the decoded
payload (`JSON.parse` of the stored `JSON.stringify` output) equals the
original payload. -/
theorem c6_round_trip (st : EventStore) (s : String) (e : Event) (exp : Int)
    (st' : EventStore) (hInv : StoreInv st) (h : st.write s e exp = .ok st') :
    ∃ snap, st'.read s = .ok snap ∧ snap.events.getLast? = some e := by
  refine ⟨_, read_spec (storeInv_write hInv h) s, ?_⟩
  show (eventsOf st' s).getLast? = some e
  rw [eventsOf_write hInv h, List.getLast?_concat]

theorem c6_witness :
    ∃ st', (emptyStore "t").write "s"
        ⟨"PonyJumped", .obj [("name", .str "Sparkle\"Hooves"), ("distance", .num (-5))]⟩
        Version.Any = .ok st' ∧
      ∃ snap, st'.read "s" = .ok snap ∧ snap.events.getLast? =
        some ⟨"PonyJumped", .obj [("name", .str "Sparkle\"Hooves"), ("distance", .num (-5))]⟩ := by
  obtain ⟨st', hok⟩ := any_write_ok (inv_emptyStore "t") "s"
    ⟨"PonyJumped", .obj [("name", .str "Sparkle\"Hooves"), ("distance", .num (-5))]⟩
  exact ⟨st', hok, c6_round_trip (emptyStore "t") "s" _ Version.Any st'
    (inv_emptyStore "t") hok⟩

/-- A backend state holding an event record whose stored payload is not
valid JSON. -/
def malformedStore : EventStore :=
  { tableName := "t",
    table := [[("PK", .S "s"), ("SK", .S "EVENT-a"),
               ("TYPE", .S "PonyJumped"), ("DATA", .S "not json")]],
    nextId := 1 }

/-- C7 as stated is false: decoding is not deferred to consumption of
the events sequence.  `read` decodes every payload inside its loop, so
on a malformed stored payload the `read` call itself throws the
`SyntaxError`; no snapshot (and hence no lazy sequence) is ever
produced. -/
theorem c7_counterexample : malformedStore.read "s" = .error .syntaxError := rfl

/-- C7 (amended): decoding is eager.  If any event record of the
stream's partition fails to decode, the `read` call itself fails with
that decoding error; the events sequence of a successful `read` replays
an already fully-decoded array and can never raise a decoding error at
consumption time. -/
theorem c7_eager_decode (st : EventStore) (s : String)
    (h : ∃ it ∈ query st.table s, hasAttr it "VERSION" = false ∧
      ∃ err, decodeEvent it = .error err) :
    ∃ err, st.read s = .error err := by
  obtain ⟨err, herr⟩ := readLoop_error_of_bad (query st.table s) (some 0) [] h
  exact ⟨err, by rw [EventStore.read, herr]⟩

theorem c7_witness :
    (∃ it ∈ query malformedStore.table "s", hasAttr it "VERSION" = false ∧
      ∃ err, decodeEvent it = .error err) ∧
    ∃ err, malformedStore.read "s" = .error err := by
  have h : ∃ it ∈ query malformedStore.table "s", hasAttr it "VERSION" = false ∧
      ∃ err, decodeEvent it = .error err :=
    ⟨[("PK", .S "s"), ("SK", .S "EVENT-a"), ("TYPE", .S "PonyJumped"),
      ("DATA", .S "not json")], by decide, rfl, .syntaxError, rfl⟩
  exact ⟨h, c7_eager_decode malformedStore "s" h⟩

/-- A backend state in which a record with an event sort key carries a
`VERSION` attribute. -/
def rogueStore : EventStore :=
  { tableName := "t",
    table := [[("PK", .S "s"), ("SK", .S "EVENT-a"), ("VERSION", .N "7"),
               ("TYPE", .S "T"), ("DATA", .S "1")],
              [("PK", .S "s"), ("SK", .S "_METADATA"), ("VERSION", .N "2")]],
    nextId := 0 }

/-- C8 as stated is false: `read` does not partition records by the
reserved sort key.  A record whose sort key is an event key but which
carries a `VERSION` attribute is treated as a version record — it is
not decoded as an event (the snapshot below has no events), and it
temporarily supplies the snapshot version before the true version
record overwrites it. -/
theorem c8_counterexample : rogueStore.read "s" = .ok ⟨"s", some 2, []⟩ := rfl

/-- C8 (amended): `read` partitions the fetched records by presence of
a `VERSION` attribute, not by sort key.  Every record carrying
`VERSION` overwrites the snapshot version in turn (the last one, in
ascending sort-key order, wins; 0 if there is none), and exactly the
records without `VERSION` are decoded as events, in ascending sort-key
order.  On records produced by the store's own writes the two
partitions coincide. -/
theorem c8_partition_by_field (st : EventStore) (s : String)
    (h : ∀ it ∈ query st.table s, hasAttr it "VERSION" = false →
      ∃ ev, decodeEvent it = .ok ev) :
    st.read s = .ok ⟨s, specVersionFrom (query st.table s) (some 0),
      decodedEvents (query st.table s)⟩ := by
  rw [EventStore.read, readLoop_spec _ _ _ h]
  rfl

theorem c8_witness :
    (∀ it ∈ query rogueStore.table "s", hasAttr it "VERSION" = false →
      ∃ ev, decodeEvent it = .ok ev) ∧
    rogueStore.read "s" = .ok ⟨"s", specVersionFrom (query rogueStore.table "s") (some 0),
      decodedEvents (query rogueStore.table "s")⟩ := by
  have h : ∀ it ∈ query rogueStore.table "s", hasAttr it "VERSION" = false →
      ∃ ev, decodeEvent it = .ok ev := by
    intro it hit hv
    have hq : query rogueStore.table "s" =
        [[("PK", .S "s"), ("SK", .S "EVENT-a"), ("VERSION", .N "7"),
          ("TYPE", .S "T"), ("DATA", .S "1")],
         [("PK", .S "s"), ("SK", .S "_METADATA"), ("VERSION", .N "2")]] := rfl
    rw [hq] at hit
    simp only [List.mem_cons, List.not_mem_nil, or_false] at hit
    rcases hit with rfl | rfl
    · exact absurd hv (by decide)
    · exact absurd hv (by decide)
  exact ⟨h, c8_partition_by_field rogueStore "s" h⟩

/-- C9: a snapshot is a point-in-time view.  If `read` returned `snap`
and a later write to the same stream succeeds, reading the pre-write
state still yields exactly `snap` — the snapshot's version and its
events array are values fixed at read time, not views onto the store —
while the post-write state reads back with the version moved up by one
and the new event appended, showing the store itself did change. -/
theorem c9_snapshot_point_in_time (st : EventStore) (s : String) (e : Event) (exp : Int)
    (st' : EventStore) (snap : EventStream) (hInv : StoreInv st)
    (hread : st.read s = .ok snap) (hwrite : st.write s e exp = .ok st') :
    st.read s = .ok snap ∧
      st'.read s = .ok ⟨s, snap.version.map (· + 1), snap.events ++ [e]⟩ := by
  rw [read_spec hInv s] at hread
  injection hread with hsnap
  subst hsnap
  refine ⟨read_spec hInv s, ?_⟩
  rw [read_spec (storeInv_write hInv hwrite) s, versionOf_write hInv hwrite,
    eventsOf_write hInv hwrite]
  rfl

theorem c9_witness :
    ∃ st', (emptyStore "t").read "s" = .ok ⟨"s", some 0, []⟩ ∧
      (emptyStore "t").write "s" ⟨"PonyJumped", .null⟩ Version.Any = .ok st' ∧
      st'.read "s" = .ok ⟨"s", (some (0 : Int)).map (· + 1), ([] : List Event) ++
        [⟨"PonyJumped", .null⟩]⟩ := by
  obtain ⟨st', hok⟩ := any_write_ok (inv_emptyStore "t") "s" ⟨"PonyJumped", .null⟩
  have h := c9_snapshot_point_in_time (emptyStore "t") "s" ⟨"PonyJumped", .null⟩
    Version.Any st' ⟨"s", some 0, []⟩ (inv_emptyStore "t") rfl hok
  exact ⟨st', h.1, hok, h.2⟩

/-- C10: any negative `expectedVersion` other than `Version.None = -2`
— including out-of-enum values such as `-3` — attaches no condition, so
the call is indistinguishable from a write with
`expectedVersion = Version.Any`. -/
theorem c10_negative_is_any (st : EventStore) (s : String) (e : Event) (exp : Int)
    (h1 : exp < 0) (h2 : exp ≠ Version.None) :
    metadataUpdate st.tableName s exp = metadataUpdate st.tableName s Version.Any ∧
      st.write s e exp = st.write s e Version.Any := by
  have hm : metadataUpdate st.tableName s exp = metadataUpdate st.tableName s Version.Any := by
    rw [metadataUpdate, metadataUpdate, if_neg h2, if_neg (show ¬ exp > -1 by omega)]
    rfl
  exact ⟨hm, by rw [EventStore.write, EventStore.write, hm]⟩

theorem c10_witness :
    (-3 : Int) < 0 ∧ (-3 : Int) ≠ Version.None ∧
      (metadataUpdate (emptyStore "t").tableName "s" (-3) =
        metadataUpdate (emptyStore "t").tableName "s" Version.Any ∧
      (emptyStore "t").write "s" ⟨"PonyJumped", .null⟩ (-3) =
        (emptyStore "t").write "s" ⟨"PonyJumped", .null⟩ Version.Any) :=
  ⟨by decide, by decide,
    c10_negative_is_any (emptyStore "t") "s" ⟨"PonyJumped", .null⟩ (-3) (by decide) (by decide)⟩
